import Mathlib

/-!
Rule-list management of dnsdist (`dnsdist-lua-rules.cc`).

A shallow embedding of the console operations that manage the ordered list of
rule/action entries (`rmRule`, `moveRuleToTop`, `mvRule`, `clearRules`, `setRules`,
`getTopRules`, `rulesToString`), of the construction helpers `makeRule` and `parseRuleParams`, and of the
console constructors `QTypeRule` and `MaxQPSIPRule`.

Modelling conventions.

* A `std::vector<T>` is a `List T`; an iterator `v.begin() + i` is the index `i`.
* `unsigned int`, `size_t` and `uint64_t` values are natural numbers.  No arithmetic of the
  modelled functions can wrap: the only decrement (`--to` in `mvRule`) is guarded by
  `from < to`, and the only increments count list positions.
* Each operation works on the private copy returned by `getCopy()`.  What it does to the
  outside world is recorded in an `Outcome`: the message it assigns to `g_outputBuffer`
  (if any) and the list it hands to `setState` (if any).
* Behaviour that C++ leaves to the implementation is a parameter of the model: the order in
  which the two operands of `==` are evaluated (`EvalOrder`), and the algorithm behind
  `std::sort`, of which only the contract is known (`StdSortContract`).  One implementation
  of `std::sort` is modelled in full, that of libstdc++ (`gnuStdSort`).
* Functions that the file calls but does not define are parameters as well: the uuid
  conversions and generator, the mask parser and the `DNSName` constructor, the name-to-code
  table of query types.  An exception that leaves a function is the result `none` (or the
  error of an `Except`).
* A text is a list of characters, one per `char` of the `std::string`.
-/

namespace Dnsdist

/-- A `boost::uuids::uuid`: a 128-bit value that the code only ever compares for equality. -/
abbrev UUID := Nat

/-- The part of a `DNSRule` that the management operations read: the hit counter
`d_matches` (an atomic 64-bit counter, read with `load()`) and the text of `toString()`. -/
structure DNSRule where
  d_matches : Nat
  toString : String
deriving DecidableEq, Repr

/-- The part of a `DNSAction` that the management operations read. -/
structure DNSAction where
  toString : String
deriving DecidableEq, Repr

/-- One entry of a rule list (`DNSDistRuleAction`, `DNSDistResponseRuleAction`): the four
members `d_rule`, `d_action`, `d_id`, `d_creationOrder`.  The action pointer may be null. -/
structure DNSDistRuleAction where
  d_rule : DNSRule
  d_action : Option DNSAction
  d_id : UUID
  d_creationOrder : Nat
deriving DecidableEq, Repr

/-- The three messages that the list operations assign to `g_outputBuffer`. -/
inductive ConsoleError where
  | noRuleMatched
  | deleteNonExisting
  | moveInvalidIndex
deriving DecidableEq, Repr

/-- The text of each message, as written in the source. -/
def ConsoleError.message : ConsoleError → String
  | .noRuleMatched => "Error: no rule matched\n"
  | .deleteNonExisting => "Error: attempt to delete non-existing rule\n"
  | .moveInvalidIndex => "Error: attempt to move rules from/to invalid index\n"

/-- What one call of a list operation does: `output` is the message assigned to
`g_outputBuffer` (`none` when the buffer is not touched), `state` is the list passed to
`setState` (`none` when `setState` is not called). -/
structure Outcome (T : Type) where
  output : Option ConsoleError
  state : Option (List T)
deriving DecidableEq, Repr

/-- The path `g_outputBuffer = msg; return;`. -/
def Outcome.fail {T : Type} (e : ConsoleError) : Outcome T := ⟨some e, none⟩

/-- The path ending in `setState(std::move(rules))`. -/
def Outcome.publish {T : Type} (rules : List T) : Outcome T := ⟨none, some rules⟩

/-- The path `return;` that neither reports nor publishes. -/
def Outcome.silent {T : Type} : Outcome T := ⟨none, none⟩

/-- The list held by the `GlobalStateHolder` after a call, when it held `held` before:
`setState` replaces it, and without `setState` it is untouched. -/
def Outcome.holder {T : Type} (held : List T) (o : Outcome T) : List T :=
  o.state.getD held

/-- The argument of `rmRule`: `boost::variant<unsigned int, std::string>`. -/
inductive RuleSelector where
  | pos (n : Nat)
  | str (s : String)
deriving DecidableEq, Repr

/-- Order in which the two operands of the `==` in `rmRule` are evaluated.  C++ does not
fix it: `rightFirst` reads `rules.end()` before the `erase` runs, `leftFirst` after. -/
inductive EvalOrder where
  | rightFirst
  | leftFirst
deriving DecidableEq, Repr

/-- The function `rmRule`.  `getUniqueID` is the conversion of the string to a uuid, defined
outside this file of the source.

String branch: `std::remove_if` moves the entries whose `d_id` differs from `uuid` to the
front, in order, and returns the iterator past them (index `kept.length`);
`erase(first, end())` cuts the vector there and returns that same iterator.  It is compared
with `rules.end()`, which is the old end (`rules.length`) or the new one (`kept.length`)
depending on the evaluation order.

Position branch: bounds check, then `erase(begin() + pos)`. -/
def rmRule (order : EvalOrder) (getUniqueID : String → UUID)
    (rules : List DNSDistRuleAction) (id : RuleSelector) : Outcome DNSDistRuleAction :=
  match id with
  | .str s =>
    let uuid := getUniqueID s
    let kept := rules.filter (fun a => !(a.d_id == uuid))
    let erased := kept.length
    let endIt := match order with
      | .rightFirst => rules.length
      | .leftFirst => kept.length
    if erased = endIt then
      Outcome.fail .noRuleMatched
    else
      Outcome.publish kept
  | .pos pos =>
    if pos ≥ rules.length then
      Outcome.fail .deleteNonExisting
    else
      Outcome.publish (rules.eraseIdx pos)

/-- The function `moveRuleToTop`: nothing on an empty list; otherwise the last entry is
copied, erased, inserted at `begin()`, and the list is published. -/
def moveRuleToTop {T : Type} (rules : List T) : Outcome T :=
  match rules.getLast? with
  | none => Outcome.silent
  | some subject => Outcome.publish ((rules.eraseIdx (rules.length - 1)).insertIdx 0 subject)

/-- The function `mvRule`.  After the bounds check the entry at `from_` is copied and erased;
if `to_` is now past the end it is pushed back, otherwise `to_` is decremented when
`from_ < to_` and the entry is inserted at `begin() + to_`. -/
def mvRule {T : Type} (rules : List T) (from_ to_ : Nat) : Outcome T :=
  if h : from_ ≥ rules.length ∨ to_ > rules.length then
    Outcome.fail .moveInvalidIndex
  else
    have hlt : from_ < rules.length := by omega
    let subject := rules[from_]
    let rules1 := rules.eraseIdx from_
    if to_ > rules1.length then
      Outcome.publish (rules1 ++ [subject])
    else
      let to1 := if from_ < to_ then to_ - 1 else to_
      Outcome.publish (rules1.insertIdx to1 subject)

/-- The comparator given to `std::sort` in `getTopRules`: `b.first < a.first`. -/
def countsComp (a b : Nat × Nat) : Bool := decide (b.1 < a.1)

/-- A sorting routine standing for `std::sort(first, last, comp)` on the vector of
`(matches, position)` pairs: it receives the comparator and the vector. -/
abbrev SortFn := (Nat × Nat → Nat × Nat → Bool) → List (Nat × Nat) → List (Nat × Nat)

/-- What the C++ standard promises about `std::sort` with comparator `comp`: the result is a
rearrangement of the input in which no element is preceded by one that `comp` places
strictly after it.  The order of equivalent elements is not part of the promise. -/
def StdSortContract (sort : SortFn) (comp : Nat × Nat → Nat × Nat → Bool) : Prop :=
  ∀ l, (sort comp l).Perm l ∧ (sort comp l).Pairwise (fun a b => comp b a = false)

/-- The first loop of `getTopRules`: one pair `{d_matches.load(), pos}` is pushed back per
rule, `pos` counting up. -/
def collectCounts : List DNSDistRuleAction → Nat → List (Nat × Nat) → List (Nat × Nat)
  | [], _, counts => counts
  | rule :: rest, pos, counts =>
    collectCounts rest (pos + 1) (counts ++ [(rule.d_rule.d_matches, pos)])

/-- The second loop of `getTopRules`: for each sorted pair the rule `rules.at(entry.second)`
is appended and `count` incremented; the loop stops when `count == top`.  `rules.at` throws
on an index out of range, which is the result `none`. -/
def collectResults (rules : List DNSDistRuleAction) (top : Nat) :
    List (Nat × Nat) → Nat → List DNSDistRuleAction → Option (List DNSDistRuleAction)
  | [], _, results => some results
  | entry :: rest, count, results =>
    match rules[entry.2]? with
    | none => none
    | some rule =>
      if count + 1 = top then some (results ++ [rule])
      else collectResults rules top rest (count + 1) (results ++ [rule])

/-- The function `getTopRules`: build the pairs, sort them with `countsComp`, collect. -/
def getTopRules (sort : SortFn) (rules : List DNSDistRuleAction) (top : Nat) :
    Option (List DNSDistRuleAction) :=
  let counts := collectCounts rules 0 []
  let counts := sort countsComp counts
  collectResults rules top counts 0 []

/-- The order "not strictly after" of `countsComp` is total. -/
instance countsComp_total : IsTotal (Nat × Nat) (fun a b => countsComp b a = false) :=
  ⟨fun a b => by simp only [countsComp, decide_eq_false_iff_not]; omega⟩

/-- The order "not strictly after" of `countsComp` is transitive. -/
instance countsComp_trans : IsTrans (Nat × Nat) (fun a b => countsComp b a = false) :=
  ⟨fun a b c => by simp only [countsComp, decide_eq_false_iff_not]; omega⟩

/-- A conforming `std::sort`: insertion sort, which keeps equivalent elements in input order. -/
def insertionStdSort : SortFn :=
  fun comp l => l.insertionSort (fun a b => comp b a = false)

/-- Another conforming `std::sort`: it sorts the reversed vector, so equivalent elements come
out in the opposite of their input order. -/
def reversingStdSort : SortFn :=
  fun comp l => l.reverse.insertionSort (fun a b => comp b a = false)

/-- A sample entry with the given identity and hit count. -/
def sampleEntry (id hits : Nat) : DNSDistRuleAction :=
  ⟨⟨hits, "rule"⟩, some ⟨"action"⟩, id, id⟩

/-- A sample uuid conversion for concrete evaluations: the length of the string. -/
def sampleUniqueID (s : String) : UUID := s.length

/-- The pairs pushed by `collectCounts` from position `pos` on, without the accumulator. -/
def countsFrom : List DNSDistRuleAction → Nat → List (Nat × Nat)
  | [], _ => []
  | rule :: rest, pos => (rule.d_rule.d_matches, pos) :: countsFrom rest (pos + 1)

/-- The console function `clearRules`: `modify` hands a copy of the held list to the lambda,
which clears it, and the cleared copy is published. -/
def clearRules {T : Type} (_rules : List T) : Outcome T := Outcome.publish []

/-- The argument type of `makeRule`, `luadnsrule_t`: a rule object, a string, a table of
strings, a `DNSName`, or a table of `DNSName`s (tables arrive as vectors of index/value
pairs).  `DNSName` is the type of parsed domain names. -/
inductive LuaDNSRule (DNSName : Type) where
  | rule (r : DNSRule)
  | str (s : String)
  | strs (v : List (Int × String))
  | name (n : DNSName)
  | names (v : List (Int × DNSName))

/-- The rule object returned by `makeRule`: the object it was given, a
`SuffixMatchNodeRule` built from the suffix set `smn`, or a `NetmaskGroupRule` built from
the prefix set `nmg` and the flag `src`.  A set is the list of what was added to it, in
order of addition. -/
inductive MadeRule (Netmask DNSName : Type) where
  | given (r : DNSRule)
  | SuffixMatchNodeRule (smn : List DNSName)
  | NetmaskGroupRule (nmg : List Netmask) (src : Bool)
deriving DecidableEq, Repr

/-- The lambda `add` of `makeRule`, acting on the pair `(smn, nmg)`.  `addMask src` is the
mask parsed by `nmg.addMask(src)`, `none` when it throws; `mkDNSName src` is the result of
the constructor `DNSName(src)`, `none` when it throws, in which case nothing catches the
exception and the result is `none`. -/
def makeRule.add {Netmask DNSName : Type} (addMask : String → Option Netmask)
    (mkDNSName : String → Option DNSName) (sets : List DNSName × List Netmask)
    (src : String) : Option (List DNSName × List Netmask) :=
  match addMask src with
  | some m => some (sets.1, sets.2 ++ [m])
  | none =>
    match mkDNSName src with
    | some n => some (sets.1 ++ [n], sets.2)
    | none => none

/-- The loop `for (a : v) add(a.second)` of `makeRule`. -/
def makeRule.addAll {Netmask DNSName : Type} (addMask : String → Option Netmask)
    (mkDNSName : String → Option DNSName) :
    List (Int × String) → List DNSName × List Netmask → Option (List DNSName × List Netmask)
  | [], sets => some sets
  | a :: rest, sets =>
    match makeRule.add addMask mkDNSName sets a.2 with
    | none => none
    | some sets1 => makeRule.addAll addMask mkDNSName rest sets1

/-- The last statement of `makeRule`: a `SuffixMatchNodeRule` when `nmg` is empty, a
`NetmaskGroupRule(nmg, true)` otherwise. -/
def makeRule.finish {Netmask DNSName : Type} (sets : List DNSName × List Netmask) :
    MadeRule Netmask DNSName :=
  if sets.2.isEmpty then MadeRule.SuffixMatchNodeRule sets.1
  else MadeRule.NetmaskGroupRule sets.2 true

/-- The function `makeRule`.  A rule object is returned as it is; otherwise the two sets
start empty, are filled according to the type of the argument, and `finish` chooses the
rule.  The result is `none` when an exception leaves the function. -/
def makeRule {Netmask DNSName : Type} (addMask : String → Option Netmask)
    (mkDNSName : String → Option DNSName) (var : LuaDNSRule DNSName) :
    Option (MadeRule Netmask DNSName) :=
  match var with
  | .rule r => some (MadeRule.given r)
  | .str s => (makeRule.add addMask mkDNSName ([], []) s).map makeRule.finish
  | .strs v => (makeRule.addAll addMask mkDNSName v ([], [])).map makeRule.finish
  | .name n => some (makeRule.finish ([n], []))
  | .names v => some (makeRule.finish (v.map Prod.snd, []))

/-- A sample mask parser for concrete evaluations: it accepts the strings that contain a
slash. -/
def sampleAddMask (s : String) : Option String :=
  if s.data.contains '/' then some s else none

/-- A sample `DNSName` constructor for concrete evaluations: it rejects the empty string. -/
def sampleDNSName (s : String) : Option String :=
  if s = "" then none else some s

/-- The table `luaruleparams_t` given to `parseRuleParams`: a map from option names to
string values. -/
abbrev LuaRuleParams := String → Option String

/-- The state that `parseRuleParams` reads and writes: the function-local static
`s_creationOrder` (64 bits) and the state of the random generator behind `getUniqueID()`. -/
structure RuleParamsState (G : Type) where
  s_creationOrder : Nat
  generator : G

/-- The function `makeRuleID`: a fresh identity from the generator for the empty string,
the identity derived from the string otherwise. -/
def makeRuleID {G : Type} (getUniqueID : String → UUID) (fresh : G → UUID × G)
    (generator : G) (id : String) : UUID × G :=
  if id = "" then fresh generator else (getUniqueID id, generator)

/-- What one call of `parseRuleParams` leaves: the two output parameters and the state. -/
structure ParsedRuleParams (G : Type) where
  uuid : UUID
  creationOrder : Nat
  state : RuleParamsState G

/-- The function `parseRuleParams`: `uuidStr` is the value of the key `uuid` when the
table is present and has it, the empty string otherwise; `uuid` comes from `makeRuleID`;
`creationOrder = s_creationOrder++` on a 64-bit counter. -/
def parseRuleParams {G : Type} (getUniqueID : String → UUID) (fresh : G → UUID × G)
    (st : RuleParamsState G) (params : Option LuaRuleParams) : ParsedRuleParams G :=
  let uuidStr : String :=
    match params with
    | some p =>
      match p "uuid" with
      | some v => v
      | none => ""
    | none => ""
  let made := makeRuleID getUniqueID fresh st.generator uuidStr
  { uuid := made.1
    creationOrder := st.s_creationOrder
    state := { s_creationOrder := (st.s_creationOrder + 1) % 2 ^ 64, generator := made.2 } }

/-- The creation orders assigned by successive calls of `parseRuleParams`, one call per
element of the list, starting in state `st`. -/
def creationOrders {G : Type} (getUniqueID : String → UUID) (fresh : G → UUID × G) :
    RuleParamsState G → List (Option LuaRuleParams) → List Nat
  | _, [] => []
  | st, p :: rest =>
    (parseRuleParams getUniqueID fresh st p).creationOrder
      :: creationOrders getUniqueID fresh (parseRuleParams getUniqueID fresh st p).state rest

/-- A sample generator for concrete evaluations: state `g` yields identity `1000 + g`. -/
def sampleFresh (g : Nat) : UUID × Nat := (1000 + g, g + 1)

/-- A sample table that holds the single key `uuid`. -/
def sampleParams (v : String) : LuaRuleParams :=
  fun k => if k = "uuid" then some v else none

/-- The argument of the console function `QTypeRule`: `boost::variant<int, std::string>`. -/
inductive QTypeArg where
  | int (dir : Int)
  | str (val : String)
deriving DecidableEq, Repr

/-- The `QTypeRule` object: the query type it matches, a 16-bit code. -/
structure QTypeMatcher where
  d_qtype : Nat
deriving DecidableEq, Repr

/-- The console function `QTypeRule`.  `chartocode val` is the value of
`QType::chartocode(val.c_str())`; the local `qtype` is a `uint16_t`.  The result is the
constructed rule, or the message of the `std::runtime_error` thrown. -/
def QTypeRule (chartocode : String → Nat) (str : QTypeArg) : Except String QTypeMatcher :=
  match str with
  | .int dir => .ok ⟨(dir % 65536).toNat⟩
  | .str val =>
    let qtype := chartocode val % 65536
    if qtype = 0 then
      .error ("Unable to convert '" ++ val ++ "' to a DNS type")
    else
      .ok ⟨qtype⟩

/-- A sample name-to-code table for concrete evaluations. -/
def sampleChartocode (s : String) : Nat :=
  if s = "A" then 1 else if s = "AAAA" then 28 else 0

/-- Conversion of an integer value to `int` (32 bits, two's complement). -/
def toInt32 (n : Int) : Int := (n + 2 ^ 31) % 2 ^ 32 - 2 ^ 31

/-- Conversion of an integer value to `unsigned int` (32 bits). -/
def toUInt32 (n : Int) : Nat := (n % 2 ^ 32).toNat

/-- The `MaxQPSIPRule` object: the values received by the seven `unsigned int` parameters of
its constructor. -/
structure MaxQPSIPMatcher where
  d_qps : Nat
  d_burst : Nat
  d_ipv4trunc : Nat
  d_ipv6trunc : Nat
  d_expiration : Nat
  d_cleanupDelay : Nat
  d_scanFraction : Nat
deriving DecidableEq, Repr

/-- The console function `MaxQPSIPRule`.  `qps` is an `unsigned int`; `ipv4trunc`,
`ipv6trunc` and `burst` are optional `int`s, so `burst.get_value_or(qps)` converts `qps` to
`int`; the remaining three are optional `unsigned int`s.  Every argument is then converted
to the `unsigned int` parameter of the constructor. -/
def MaxQPSIPRule (qps : Nat) (ipv4trunc ipv6trunc burst : Option Int)
    (expiration cleanupDelay scanFraction : Option Nat) : MaxQPSIPMatcher :=
  { d_qps := qps
    d_burst := toUInt32 (burst.getD (toInt32 qps))
    d_ipv4trunc := toUInt32 (ipv4trunc.getD 32)
    d_ipv6trunc := toUInt32 (ipv6trunc.getD 64)
    d_expiration := expiration.getD 300
    d_cleanupDelay := cleanupDelay.getD 60
    d_scanFraction := scanFraction.getD 10 }

/-- One value of the option table `ruleparams_t`:
`boost::variant<bool, int, std::string, std::vector<std::pair<int,int>>>`. -/
inductive RuleParamValue where
  | bool (b : Bool)
  | int (n : Int)
  | str (s : String)
  | pairs (v : List (Int × Int))
deriving DecidableEq, Repr

/-- The option table `ruleparams_t`: a map from option names to values. -/
abbrev RuleParams := String → Option RuleParamValue

/-- The call `boost::get<bool>(value)`: `none` stands for the `bad_get` it throws on a
value of another type. -/
def RuleParamValue.getBool : RuleParamValue → Option Bool
  | .bool b => some b
  | _ => none

/-- The call `boost::get<int>(value)`: `none` stands for the `bad_get` it throws on a
value of another type. -/
def RuleParamValue.getInt : RuleParamValue → Option Int
  | .int n => some n
  | _ => none

/-- The constant `string::npos`, the largest `size_t`. -/
def npos : Nat := 2 ^ 64 - 1

/-- The head of `rulesToString`: the locals `showUUIDs` (default `false`) and
`truncateRuleWidth` (default `npos`) after the option table has been read.  The `int` of
the option is converted to `size_t`.  `none` when a `boost::get` throws. -/
def rulesToString.options (vars : Option RuleParams) : Option (Bool × Nat) :=
  match vars with
  | none => some (false, npos)
  | some v =>
    let showUUIDs : Option Bool :=
      match v "showUUIDs" with
      | some x => x.getBool
      | none => some false
    let truncateRuleWidth : Option Nat :=
      match v "truncateRuleWidth" with
      | some x => x.getInt.map (fun n => (n % 2 ^ 64).toNat)
      | none => some npos
    match showUUIDs, truncateRuleWidth with
    | some s, some w => some (s, w)
    | _, _ => none

/-- A left-justified directive of width `w` (`%-3d`, `%-38s`, `%-56s`): the text, then
blanks up to the width; nothing is cut. -/
def padRight (w : Nat) (s : List Char) : List Char := s ++ List.replicate (w - s.length) ' '

/-- A right-justified directive of width `w` (`%9d`): blanks up to the width, then the text;
nothing is cut. -/
def padLeft (w : Nat) (s : List Char) : List Char := List.replicate (w - s.length) ' ' ++ s

/-- The text of an unsigned number fed to the format. -/
def decimal (n : Nat) : List Char := Nat.toDigits 10 n

/-- The format `"%-3d %-38s %9d %9d %-56s %s\n"` applied to six arguments, each given as
the text that the stream insertion of the argument produces. -/
def formatWithUUIDs (num uuid order matches_ rule action : List Char) : List Char :=
  padRight 3 num ++ [' '] ++ padRight 38 uuid ++ [' '] ++ padLeft 9 order ++ [' ']
    ++ padLeft 9 matches_ ++ [' '] ++ padRight 56 rule ++ [' '] ++ action ++ ['\n']

/-- The format `"%-3d %9d %-56s %s\n"` applied to four arguments. -/
def formatPlain (num matches_ rule action : List Char) : List Char :=
  padRight 3 num ++ [' '] ++ padLeft 9 matches_ ++ [' '] ++ padRight 56 rule ++ [' ']
    ++ action ++ ['\n']

/-- The local `name` of both loops: `lim.d_rule->toString().substr(0, truncateRuleWidth)`. -/
def rulesToString.name (truncateRuleWidth : Nat) (lim : DNSDistRuleAction) : List Char :=
  lim.d_rule.toString.data.take truncateRuleWidth

/-- The body shared by the two loops of `rulesToString`: for each entry the row made by
`row` from `num`, the entry and its action is appended to `result`, and `num` is
incremented.  An entry whose action pointer is null has no defined row: `none`. -/
def rulesToString.loop (row : Nat → DNSDistRuleAction → DNSAction → List Char) :
    List DNSDistRuleAction → Nat → List Char → Option (List Char)
  | [], _, result => some result
  | lim :: rest, num, result =>
    match lim.d_action with
    | none => none
    | some action => rulesToString.loop row rest (num + 1) (result ++ row num lim action)

/-- The function `rulesToString`.  `uuidToString` is `boost::uuids::to_string`.  A
character of the model stands for one `char` of a `std::string`. -/
def rulesToString (uuidToString : UUID → List Char) (rules : List DNSDistRuleAction)
    (vars : Option RuleParams) : Option String :=
  match rulesToString.options vars with
  | none => none
  | some (showUUIDs, truncateRuleWidth) =>
    if showUUIDs then
      (rulesToString.loop
        (fun num lim action =>
          formatWithUUIDs (decimal num) (uuidToString lim.d_id) (decimal lim.d_creationOrder)
            (decimal lim.d_rule.d_matches) (rulesToString.name truncateRuleWidth lim)
            action.toString.data)
        rules 0
        (formatWithUUIDs "#".data "UUID".data "Cr. Order".data "Matches".data "Rule".data
          "Action".data)).map String.mk
    else
      (rulesToString.loop
        (fun num lim action =>
          formatPlain (decimal num) (decimal lim.d_rule.d_matches)
            (rulesToString.name truncateRuleWidth lim) action.toString.data)
        rules 0
        (formatPlain "#".data "Matches".data "Rule".data "Action".data)).map String.mk

/-- The rows appended by `rulesToString.loop`, one per entry, numbered from `num`. -/
def rulesToString.rows (row : Nat → DNSDistRuleAction → DNSAction → List Char) :
    List DNSDistRuleAction → Nat → List (List Char)
  | [], _ => []
  | lim :: rest, num =>
    (match lim.d_action with
      | none => []
      | some action => row num lim action) :: rulesToString.rows row rest (num + 1)

/-- A sample `boost::uuids::to_string` for concrete evaluations: the decimal text. -/
def sampleUuidToString (u : UUID) : List Char := decimal u

/-- A sample option table with `showUUIDs = true` and `truncateRuleWidth = 2`. -/
def sampleRuleParams : RuleParams :=
  fun k =>
    if k = "showUUIDs" then some (.bool true)
    else if k = "truncateRuleWidth" then some (.int 2)
    else none

/-- The header line of `rulesToString`, for either value of `showUUIDs`. -/
def rulesToString.header (showUUIDs : Bool) : List Char :=
  if showUUIDs then
    formatWithUUIDs "#".data "UUID".data "Cr. Order".data "Matches".data "Rule".data
      "Action".data
  else
    formatPlain "#".data "Matches".data "Rule".data "Action".data

/-- The line of one entry in `rulesToString`, for either value of `showUUIDs`. -/
def rulesToString.row (uuidToString : UUID → List Char) (showUUIDs : Bool)
    (truncateRuleWidth : Nat) (num : Nat) (lim : DNSDistRuleAction) (action : DNSAction) :
    List Char :=
  if showUUIDs then
    formatWithUUIDs (decimal num) (uuidToString lim.d_id) (decimal lim.d_creationOrder)
      (decimal lim.d_rule.d_matches) (rulesToString.name truncateRuleWidth lim)
      action.toString.data
  else
    formatPlain (decimal num) (decimal lim.d_rule.d_matches)
      (rulesToString.name truncateRuleWidth lim) action.toString.data

/-- The line of one entry as the report format describes it: the position index, then the
identity and the creation order when `showUUIDs` holds, then the match count, the rule
description `name`, the action description, and the newline; columns are separated by one
blank and padded to widths 3, 38, 9, 9 and 56. -/
def rulesToString.line (uuidToString : UUID → List Char) (showUUIDs : Bool) (num : Nat)
    (lim : DNSDistRuleAction) (name action : List Char) : List Char :=
  padRight 3 (decimal num) ++ [' ']
    ++ (if showUUIDs then
          padRight 38 (uuidToString lim.d_id) ++ [' ']
            ++ padLeft 9 (decimal lim.d_creationOrder) ++ [' ']
        else [])
    ++ padLeft 9 (decimal lim.d_rule.d_matches) ++ [' ']
    ++ padRight 56 name ++ [' '] ++ action ++ ['\n']

/-- The header line as the report format describes it: the column labels, padded like the
columns of the entries. -/
def rulesToString.labels (showUUIDs : Bool) : List Char :=
  padRight 3 "#".data ++ [' ']
    ++ (if showUUIDs then
          padRight 38 "UUID".data ++ [' '] ++ padLeft 9 "Cr. Order".data ++ [' ']
        else [])
    ++ padLeft 9 "Matches".data ++ [' '] ++ padRight 56 "Rule".data ++ [' ']
    ++ "Action".data ++ ['\n']

/-- The `DNSRule` seen through the pointer that `makeRule` returns: the object that was
given, or a newly constructed rule, whose hit counter starts at 0 and whose `toString()` is
the text `describe` (the two rule classes are defined outside this file of the source). -/
def MadeRule.toDNSRule {Netmask DNSName : Type}
    (describe : MadeRule Netmask DNSName → String) : MadeRule Netmask DNSName → DNSRule
  | .given r => r
  | .SuffixMatchNodeRule smn => ⟨0, describe (.SuffixMatchNodeRule smn)⟩
  | .NetmaskGroupRule nmg src => ⟨0, describe (.NetmaskGroupRule nmg src)⟩

/-- The loop of `setRules` over `newruleactions`, acting on `gruleactions`: an element whose
`d_action` is not null is pushed back with the rule returned by `makeRule` on its `d_rule`
(a rule object) and with its own action, identity and creation order; an element whose
`d_action` is null is skipped.  `none` when an exception leaves `makeRule`. -/
def setRules.fill {Netmask DNSName : Type} (addMask : String → Option Netmask)
    (mkDNSName : String → Option DNSName) (describe : MadeRule Netmask DNSName → String) :
    List (Int × DNSDistRuleAction) → List DNSDistRuleAction → Option (List DNSDistRuleAction)
  | [], gruleactions => some gruleactions
  | pair :: rest, gruleactions =>
    match pair.2.d_action with
    | none => setRules.fill addMask mkDNSName describe rest gruleactions
    | some action =>
      match makeRule addMask mkDNSName (.rule pair.2.d_rule) with
      | none => none
      | some rule =>
        setRules.fill addMask mkDNSName describe rest
          (gruleactions ++
            [⟨rule.toDNSRule describe, some action, pair.2.d_id, pair.2.d_creationOrder⟩])

/-- The console function `setRules`: `modify` hands a copy of the held list to the lambda,
which clears it and fills it from `newruleactions`; the result is published.  The elements
of `newruleactions` are the rule/action objects behind the (non-null) shared pointers of the
table, with their table indices. -/
def setRules {Netmask DNSName : Type} (addMask : String → Option Netmask)
    (mkDNSName : String → Option DNSName) (describe : MadeRule Netmask DNSName → String)
    (_gruleactions : List DNSDistRuleAction) (newruleactions : List (Int × DNSDistRuleAction)) :
    Option (Outcome DNSDistRuleAction) :=
  (setRules.fill addMask mkDNSName describe newruleactions []).map Outcome.publish

/-- A sample description of newly constructed rules for concrete evaluations. -/
def sampleDescribe (_m : MadeRule String String) : String := "made"

/-- A sample entry whose action pointer is null. -/
def sampleNullAction (id : Nat) : DNSDistRuleAction :=
  ⟨⟨0, "rule"⟩, none, id, id⟩

/-- A sample list of two entries for the text report: identities 12 and 3, hits 5 and 7. -/
def sampleReportRules : List DNSDistRuleAction := [sampleEntry 12 5, sampleEntry 3 7]

/-! ## The `std::sort` of libstdc++

`getTopRules` calls `std::sort`, which the file does not define.  The definitions below follow
the implementation shipped with GCC 12 (`bits/stl_algo.h`, `bits/stl_heap.h`): introsort down
to ranges of 16 elements, with a heapsort fallback, then one insertion sort.  The names are
those of the library without the leading underscores.  An iterator is an index into the
vector; every loop takes a bound on its number of rounds, which the callers set to the
length of the vector (no loop of the library runs longer on a range inside the vector). -/

/-- Inserting at an index within bounds splits the list there. -/
theorem insertIdx_eq_take_drop {T : Type} (e : T) :
    ∀ (M : List T) (k : Nat), k ≤ M.length → M.insertIdx k e = M.take k ++ e :: M.drop k
  | M, 0, _ => by simp
  | [], k + 1, h => by simp at h
  | x :: xs, k + 1, h => by
    have h1 : k ≤ xs.length := by simpa using h
    simp [List.insertIdx_succ_cons, insertIdx_eq_take_drop e xs k h1]

/-- Erase at `f`, insert at `t - 1`, for `f < t`: the entry lands before the old position `t`. -/
theorem eraseIdx_insertIdx_forward {T : Type} (e : T) :
    ∀ (L : List T) (f t : Nat), f < t → t ≤ L.length →
      (L.eraseIdx f).insertIdx (t - 1) e = (L.take t).eraseIdx f ++ e :: L.drop t
  | [], f, t, hft, ht => by simp at ht; omega
  | x :: xs, 0, t + 1, _, ht => by
    have h1 : t ≤ xs.length := by simpa using ht
    simp [insertIdx_eq_take_drop e xs t h1]
  | x :: xs, f + 1, t + 1, hft, ht => by
    have h1 : t ≤ xs.length := by simpa using ht
    have h2 : f < t := by omega
    obtain ⟨t1, rfl⟩ : ∃ t1, t = t1 + 1 := ⟨t - 1, by omega⟩
    have ih := eraseIdx_insertIdx_forward e xs f (t1 + 1) h2 h1
    simp only [Nat.add_sub_cancel] at ih
    simp [List.insertIdx_succ_cons, ih]

/-- Erase at `f`, insert at `t`, for `t ≤ f`: the entry lands before the old position `t`. -/
theorem eraseIdx_insertIdx_backward {T : Type} (e : T) :
    ∀ (L : List T) (f t : Nat), t ≤ f → f < L.length →
      (L.eraseIdx f).insertIdx t e = L.take t ++ e :: (L.drop t).eraseIdx (f - t)
  | [], f, t, _, hf => by simp at hf
  | x :: xs, f, 0, _, _ => by simp
  | x :: xs, f + 1, t + 1, htf, hf => by
    have h1 : f < xs.length := by simpa using hf
    have h2 : t ≤ f := by omega
    have ih := eraseIdx_insertIdx_backward e xs f t h2 h1
    simp [List.insertIdx_succ_cons, ih]

/-- Putting the erased entry back where it was restores the list. -/
theorem insertIdx_eraseIdx_self {T : Type} :
    ∀ (L : List T) (f : Nat) (hf : f < L.length), (L.eraseIdx f).insertIdx f L[f] = L
  | [], f, hf => by simp at hf
  | x :: xs, 0, _ => by simp
  | x :: xs, f + 1, hf => by
    have h1 : f < xs.length := by simpa using hf
    simp [List.insertIdx_succ_cons, insertIdx_eraseIdx_self xs f h1]

/-- The entry inserted at `k` is found at `k`. -/
theorem getElem?_insertIdx_self {T : Type} (e : T) (M : List T) (k : Nat) (h : k ≤ M.length) :
    (M.insertIdx k e)[k]? = some e := by
  rw [insertIdx_eq_take_drop e M k h]
  rw [List.getElem?_append_right (by simp)]
  simp [Nat.min_eq_left h]

/-- The body of `mvRule` on valid indices, as one erase followed by one insert. -/
theorem mvRule_eq_insertIdx {T : Type} (L : List T) (from_ to_ : Nat)
    (hf : from_ < L.length) (ht : to_ ≤ L.length) :
    mvRule L from_ to_ = Outcome.publish
      ((L.eraseIdx from_).insertIdx (if from_ < to_ then to_ - 1 else to_) L[from_]) := by
  have hlen : (L.eraseIdx from_).length = L.length - 1 := List.length_eraseIdx_of_lt hf
  have hg : ¬ (from_ ≥ L.length ∨ to_ > L.length) := by omega
  unfold mvRule
  rw [dif_neg hg]
  by_cases hend : to_ > (L.eraseIdx from_).length
  · have hto : to_ = L.length := by omega
    have hk : (if from_ < to_ then to_ - 1 else to_) = (L.eraseIdx from_).length := by
      rw [if_pos (by omega)]; omega
    simp only [hend, if_true, hk, List.insertIdx_length_self]
  · simp only [hend, if_false]

/-- Two published outcomes are equal only when the published lists are. -/
theorem Outcome.publish_inj {T : Type} {R S : List T}
    (h : Outcome.publish R = Outcome.publish S) : R = S := by
  simpa [Outcome.publish] using h

/-! ## `mvRule` -/

/-- C1: for `from_ < n` and `to_ ≤ n`, `mvRule` publishes the list in which the entry of
position `from_` has been taken out and put immediately before the entry originally at
position `to_` (at the end when `to_ = n`): the entries before it are those of the positions
below `to_` and the entries after it those of the positions from `to_` on, `from_` itself
left out.  The moved entry sits at index `to_ - 1` (if `from_ < to_`) or `to_`, erasing it
there gives the original list without position `from_`, so all other entries keep their
relative order; and for `to_ = from_` or `to_ = from_ + 1` the published list is `L`. -/
theorem mvRule_places_entry_before_target {T : Type} (L : List T) (from_ to_ : Nat)
    (hf : from_ < L.length) (ht : to_ ≤ L.length) :
    mvRule L from_ to_ = Outcome.publish
        (if from_ < to_ then (L.take to_).eraseIdx from_ ++ L[from_] :: L.drop to_
         else L.take to_ ++ L[from_] :: (L.drop to_).eraseIdx (from_ - to_))
    ∧ (∀ R, mvRule L from_ to_ = Outcome.publish R →
        R.length = L.length ∧
        R[if from_ < to_ then to_ - 1 else to_]? = some L[from_] ∧
        R.eraseIdx (if from_ < to_ then to_ - 1 else to_) = L.eraseIdx from_)
    ∧ (to_ = from_ ∨ to_ = from_ + 1 → mvRule L from_ to_ = Outcome.publish L) := by
  have hlen : (L.eraseIdx from_).length = L.length - 1 := List.length_eraseIdx_of_lt hf
  have hmv := mvRule_eq_insertIdx L from_ to_ hf ht
  have hk : (if from_ < to_ then to_ - 1 else to_) ≤ (L.eraseIdx from_).length := by
    split <;> omega
  refine ⟨?_, ?_, ?_⟩
  · rw [hmv]
    by_cases hlt : from_ < to_
    · simp only [hlt, if_true]
      rw [eraseIdx_insertIdx_forward L[from_] L from_ to_ hlt ht]
    · simp only [hlt, if_false]
      rw [eraseIdx_insertIdx_backward L[from_] L from_ to_ (by omega) hf]
  · intro R hR
    rw [hmv] at hR
    have hR1 := Outcome.publish_inj hR
    subst hR1
    refine ⟨?_, getElem?_insertIdx_self _ _ _ hk, List.eraseIdx_insertIdx _ _⟩
    rw [List.length_insertIdx _ _ hk]
    omega
  · intro h
    rw [hmv]
    have hk1 : (if from_ < to_ then to_ - 1 else to_) = from_ := by
      rcases h with h | h
      · rw [if_neg (by omega)]; exact h
      · rw [if_pos (by omega)]; omega
    rw [hk1, insertIdx_eraseIdx_self L from_ hf]

/-- C1 at a concrete list: moving position 0 of four entries in front of position 3. -/
theorem mvRule_places_entry_before_target_witness :
    mvRule [10, 11, 12, 13] 0 3 = Outcome.publish [11, 12, 10, 13]
    ∧ (∀ R, mvRule [10, 11, 12, 13] 0 3 = Outcome.publish R →
        R.length = 4 ∧ R[2]? = some 10 ∧ R.eraseIdx 2 = [11, 12, 13])
    ∧ (3 = 0 ∨ 3 = 0 + 1 → mvRule [10, 11, 12, 13] 0 3 = Outcome.publish [10, 11, 12, 13]) :=
  mvRule_places_entry_before_target [10, 11, 12, 13] 0 3 (by decide) (by decide)

/-- C2: `mvRule` reports the invalid-index error exactly when `from_ ≥ n` or `to_ > n`; in
that case `setState` is not called and the state holder still holds `L`. -/
theorem mvRule_invalid_index_iff {T : Type} (L : List T) (from_ to_ : Nat) :
    ((mvRule L from_ to_).output = some ConsoleError.moveInvalidIndex
        ↔ (from_ ≥ L.length ∨ to_ > L.length))
    ∧ ((from_ ≥ L.length ∨ to_ > L.length) →
        mvRule L from_ to_ = Outcome.fail ConsoleError.moveInvalidIndex
        ∧ (mvRule L from_ to_).state = none
        ∧ (mvRule L from_ to_).holder L = L) := by
  by_cases hg : from_ ≥ L.length ∨ to_ > L.length
  · have hmv : mvRule L from_ to_ = Outcome.fail ConsoleError.moveInvalidIndex := by
      unfold mvRule
      rw [dif_pos hg]
    refine ⟨⟨fun _ => hg, fun _ => ?_⟩, fun _ => ⟨hmv, ?_, ?_⟩⟩ <;>
      simp [hmv, Outcome.fail, Outcome.holder]
  · have hmv := mvRule_eq_insertIdx L from_ to_ (by omega) (by omega)
    refine ⟨⟨fun h => ?_, fun h => absurd h hg⟩, fun h => absurd h hg⟩
    rw [hmv] at h
    simp [Outcome.publish] at h

/-- C2 at a concrete list: `from_ = 2` is out of range for two entries. -/
theorem mvRule_invalid_index_iff_witness :
    (2 ≥ [10, 11].length ∨ 0 > [10, 11].length)
    ∧ mvRule [10, 11] 2 0 = Outcome.fail ConsoleError.moveInvalidIndex
    ∧ (mvRule [10, 11] 2 0).state = none
    ∧ (mvRule [10, 11] 2 0).holder [10, 11] = [10, 11] :=
  ⟨by decide, (mvRule_invalid_index_iff [10, 11] 2 0).2 (by decide)⟩

/-- C3: for `from_ < n` and `to_ ≤ n`, `mvRule L from_ to_` publishes a list `R`, and the
inverse move on `R` (`mvRule R (to_ - 1) from_` when `from_ < to_`, `mvRule R to_ (from_ + 1)`
otherwise) publishes `L` again. -/
theorem mvRule_round_trip {T : Type} (L : List T) (from_ to_ : Nat)
    (hf : from_ < L.length) (ht : to_ ≤ L.length) :
    ∃ R, mvRule L from_ to_ = Outcome.publish R ∧
      (if from_ < to_ then mvRule R (to_ - 1) from_ else mvRule R to_ (from_ + 1))
        = Outcome.publish L := by
  have hlen : (L.eraseIdx from_).length = L.length - 1 := List.length_eraseIdx_of_lt hf
  have hk : (if from_ < to_ then to_ - 1 else to_) ≤ (L.eraseIdx from_).length := by
    split <;> omega
  refine ⟨_, mvRule_eq_insertIdx L from_ to_ hf ht, ?_⟩
  generalize hR : (L.eraseIdx from_).insertIdx (if from_ < to_ then to_ - 1 else to_) L[from_] = R
  have hRlen : R.length = L.length := by
    rw [← hR, List.length_insertIdx _ _ hk]; omega
  have hRk : R[if from_ < to_ then to_ - 1 else to_]? = some L[from_] := by
    rw [← hR]; exact getElem?_insertIdx_self _ _ _ hk
  have hRe : R.eraseIdx (if from_ < to_ then to_ - 1 else to_) = L.eraseIdx from_ := by
    rw [← hR]; exact List.eraseIdx_insertIdx _ _
  by_cases hlt : from_ < to_
  · simp only [hlt, if_true] at hRk hRe ⊢
    have hb : to_ - 1 < R.length := by omega
    rw [mvRule_eq_insertIdx R (to_ - 1) from_ hb (by omega), if_neg (by omega), hRe]
    rw [List.getElem?_eq_getElem hb] at hRk
    rw [Option.some.inj hRk, insertIdx_eraseIdx_self L from_ hf]
  · simp only [hlt, if_false] at hRk hRe ⊢
    have hb : to_ < R.length := by omega
    rw [mvRule_eq_insertIdx R to_ (from_ + 1) hb (by omega), if_pos (by omega), hRe]
    rw [List.getElem?_eq_getElem hb] at hRk
    rw [Option.some.inj hRk]
    simp only [Nat.add_sub_cancel]
    rw [insertIdx_eraseIdx_self L from_ hf]

/-- C3 at a concrete list: move 3 to 1, then back with `mvRule R 1 4`. -/
theorem mvRule_round_trip_witness :
    ∃ R, mvRule [10, 11, 12, 13] 3 1 = Outcome.publish R ∧
      (if 3 < 1 then mvRule R (1 - 1) 3 else mvRule R 1 (3 + 1))
        = Outcome.publish [10, 11, 12, 13] :=
  mvRule_round_trip [10, 11, 12, 13] 3 1 (by decide) (by decide)

/-! ## `rmRule` and `moveRuleToTop` -/

/-- In the string branch of `rmRule`, when no entry has the requested identity the
no-match error is reported and nothing is published, whatever the evaluation order. -/
theorem rmRule_str_no_match (order : EvalOrder) (getUniqueID : String → UUID)
    (L : List DNSDistRuleAction) (s : String) (h : ∀ a ∈ L, a.d_id ≠ getUniqueID s) :
    rmRule order getUniqueID L (.str s) = Outcome.fail .noRuleMatched := by
  have hk : L.filter (fun a => !(a.d_id == getUniqueID s)) = L := by
    rw [List.filter_eq_self]
    intro a ha
    simpa using h a ha
  cases order <;> simp [rmRule, hk]

/-- When `rules.end()` is read before the `erase` (right operand first) and some entry has
the requested identity, the string branch of `rmRule` publishes the list without the
entries of that identity, the others in their original order. -/
theorem rmRule_str_rightFirst_match (getUniqueID : String → UUID)
    (L : List DNSDistRuleAction) (s : String) (h : ∃ a ∈ L, a.d_id = getUniqueID s) :
    rmRule .rightFirst getUniqueID L (.str s)
      = Outcome.publish (L.filter (fun a => !(a.d_id == getUniqueID s))) := by
  have hlt : (L.filter (fun a => !(a.d_id == getUniqueID s))).length < L.length := by
    rw [List.length_filter_lt_length_iff_exists]
    obtain ⟨a, ha, hid⟩ := h
    exact ⟨a, ha, by simp [hid]⟩
  have hne : (L.filter (fun a => !(a.d_id == getUniqueID s))).length ≠ L.length := by omega
  simp [rmRule, hne]

/-- When `rules.end()` is read after the `erase` (left operand first), the iterator returned
by `erase` always equals it: the string branch of `rmRule` reports the no-match error and
publishes nothing for every list and every string. -/
theorem rmRule_str_leftFirst_always_fails (getUniqueID : String → UUID)
    (L : List DNSDistRuleAction) (s : String) :
    rmRule .leftFirst getUniqueID L (.str s) = Outcome.fail .noRuleMatched := by
  simp [rmRule]

/-- C4, evaluated on a one-entry list whose entry has the requested identity.  With the
left operand of `==` evaluated first, `rmRule` reports "no rule matched", calls no
`setState`, and the entry stays in the held list; with the right operand first the same
call publishes the empty list without a message. -/
theorem rmRule_by_identity_depends_on_evaluation_order :
    (sampleEntry 3 0).d_id = sampleUniqueID "abc"
    ∧ rmRule .leftFirst sampleUniqueID [sampleEntry 3 0] (.str "abc")
        = Outcome.fail .noRuleMatched
    ∧ (rmRule .leftFirst sampleUniqueID [sampleEntry 3 0] (.str "abc")).holder
        [sampleEntry 3 0] = [sampleEntry 3 0]
    ∧ rmRule .rightFirst sampleUniqueID [sampleEntry 3 0] (.str "abc")
        = Outcome.publish [] := by
  decide

/-- With the right operand of `==` evaluated first: after an entry of a fresh identity is
appended, the first removal by that identity publishes the old list, and a second removal
reports the no-match error and publishes nothing. -/
theorem rmRule_after_insert_rightFirst (getUniqueID : String → UUID)
    (L : List DNSDistRuleAction) (e : DNSDistRuleAction) (s : String)
    (he : e.d_id = getUniqueID s) (hL : ∀ a ∈ L, a.d_id ≠ getUniqueID s) :
    rmRule .rightFirst getUniqueID (L ++ [e]) (.str s) = Outcome.publish L
    ∧ rmRule .rightFirst getUniqueID L (.str s) = Outcome.fail .noRuleMatched := by
  refine ⟨?_, rmRule_str_no_match _ _ _ _ hL⟩
  rw [rmRule_str_rightFirst_match getUniqueID (L ++ [e]) s ⟨e, by simp, he⟩]
  have hk : L.filter (fun a => !(a.d_id == getUniqueID s)) = L := by
    rw [List.filter_eq_self]
    intro a ha
    simpa using hL a ha
  simp [List.filter_append, hk, he]

/-- C5, evaluated on a list to which an entry of a fresh identity has just been appended.
With the left operand of `==` evaluated first, the first `rmRule` for that identity already
reports "no rule matched" and the entry stays in the held list; with the right operand
first it publishes the list without the entry. -/
theorem rmRule_after_insert_depends_on_evaluation_order :
    (∀ a ∈ [sampleEntry 1 0], a.d_id ≠ sampleUniqueID "abc")
    ∧ (sampleEntry 3 0).d_id = sampleUniqueID "abc"
    ∧ rmRule .leftFirst sampleUniqueID ([sampleEntry 1 0] ++ [sampleEntry 3 0]) (.str "abc")
        = Outcome.fail .noRuleMatched
    ∧ (rmRule .leftFirst sampleUniqueID ([sampleEntry 1 0] ++ [sampleEntry 3 0])
          (.str "abc")).holder ([sampleEntry 1 0] ++ [sampleEntry 3 0])
        = [sampleEntry 1 0, sampleEntry 3 0]
    ∧ rmRule .rightFirst sampleUniqueID ([sampleEntry 1 0] ++ [sampleEntry 3 0]) (.str "abc")
        = Outcome.publish [sampleEntry 1 0] := by
  decide

/-- C6: in the position branch, `rmRule` with `pos ≥ n` reports the index error, calls no
`setState` and the held list stays `L`; with `pos < n` it publishes `L` without its
`pos`-th entry: the entries before `pos` followed by the entries after it, `n - 1` in all. -/
theorem rmRule_by_position (order : EvalOrder) (getUniqueID : String → UUID)
    (L : List DNSDistRuleAction) (pos : Nat) :
    (pos ≥ L.length →
      rmRule order getUniqueID L (.pos pos) = Outcome.fail .deleteNonExisting
      ∧ (rmRule order getUniqueID L (.pos pos)).state = none
      ∧ (rmRule order getUniqueID L (.pos pos)).holder L = L)
    ∧ (pos < L.length →
      rmRule order getUniqueID L (.pos pos) = Outcome.publish (L.take pos ++ L.drop (pos + 1))
      ∧ (L.take pos ++ L.drop (pos + 1)).length = L.length - 1
      ∧ (rmRule order getUniqueID L (.pos pos)).output = none) := by
  constructor
  · intro h
    have hr : rmRule order getUniqueID L (.pos pos) = Outcome.fail .deleteNonExisting := by
      simp [rmRule, h]
    simp [hr, Outcome.fail, Outcome.holder]
  · intro h
    have hr : rmRule order getUniqueID L (.pos pos)
        = Outcome.publish (L.take pos ++ L.drop (pos + 1)) := by
      have hn : ¬ pos ≥ L.length := by omega
      simp [rmRule, hn, List.eraseIdx_eq_take_drop_succ]
    refine ⟨hr, ?_, by simp [hr, Outcome.publish]⟩
    rw [← List.eraseIdx_eq_take_drop_succ, List.length_eraseIdx_of_lt h]

/-- C6 at concrete lists: position 5 of two entries, and position 1 of three entries. -/
theorem rmRule_by_position_witness :
    (rmRule .rightFirst sampleUniqueID [sampleEntry 1 0, sampleEntry 2 0] (.pos 5)
        = Outcome.fail .deleteNonExisting
      ∧ (rmRule .rightFirst sampleUniqueID [sampleEntry 1 0, sampleEntry 2 0] (.pos 5)).state
        = none
      ∧ (rmRule .rightFirst sampleUniqueID [sampleEntry 1 0, sampleEntry 2 0] (.pos 5)).holder
          [sampleEntry 1 0, sampleEntry 2 0] = [sampleEntry 1 0, sampleEntry 2 0])
    ∧ (rmRule .leftFirst sampleUniqueID [sampleEntry 1 0, sampleEntry 2 0, sampleEntry 3 0]
          (.pos 1) = Outcome.publish [sampleEntry 1 0, sampleEntry 3 0]
      ∧ [sampleEntry 1 0, sampleEntry 3 0].length = 3 - 1
      ∧ (rmRule .leftFirst sampleUniqueID [sampleEntry 1 0, sampleEntry 2 0, sampleEntry 3 0]
          (.pos 1)).output = none) :=
  ⟨(rmRule_by_position .rightFirst sampleUniqueID [sampleEntry 1 0, sampleEntry 2 0] 5).1
      (by decide),
   (rmRule_by_position .leftFirst sampleUniqueID
      [sampleEntry 1 0, sampleEntry 2 0, sampleEntry 3 0] 1).2 (by decide)⟩

/-- C7: on `xs ++ [e]`, `moveRuleToTop` publishes `e :: xs`; on the empty list it reports
nothing, calls no `setState`, and the held list stays empty. -/
theorem moveRuleToTop_rotates_last_to_front {T : Type} (xs : List T) (e : T) :
    moveRuleToTop (xs ++ [e]) = Outcome.publish (e :: xs)
    ∧ moveRuleToTop ([] : List T) = Outcome.silent
    ∧ (moveRuleToTop ([] : List T)).state = none
    ∧ (moveRuleToTop ([] : List T)).holder [] = [] := by
  refine ⟨?_, rfl, rfl, rfl⟩
  have he : (xs ++ [e]).eraseIdx ((xs ++ [e]).length - 1) = xs := by
    have hlen : (xs ++ [e]).length - 1 = xs.length := by simp
    rw [hlen, List.eraseIdx_append_of_length_le (Nat.le_refl _)]
    simp
  simp only [moveRuleToTop, List.getLast?_concat, he, List.insertIdx_zero]

/-! ## `getTopRules`: the two loops -/

/-- The first loop appends the pairs of `countsFrom` to its accumulator. -/
theorem collectCounts_eq_append :
    ∀ (L : List DNSDistRuleAction) (pos : Nat) (acc : List (Nat × Nat)),
      collectCounts L pos acc = acc ++ countsFrom L pos
  | [], _, acc => by simp [collectCounts, countsFrom]
  | r :: rest, pos, acc => by
    simp [collectCounts, countsFrom, collectCounts_eq_append rest (pos + 1)]

/-- The positions recorded by the first loop are `pos, pos + 1, ...`, one per rule. -/
theorem countsFrom_map_snd :
    ∀ (L : List DNSDistRuleAction) (pos : Nat),
      (countsFrom L pos).map Prod.snd = List.range' pos L.length
  | [], _ => by simp [countsFrom]
  | r :: rest, pos => by
    simp [countsFrom, countsFrom_map_snd rest (pos + 1), List.range'_succ]

/-- Each recorded pair holds the hit count of the rule at the recorded position. -/
theorem countsFrom_lookup :
    ∀ (L : List DNSDistRuleAction) (pos : Nat) (e : Nat × Nat), e ∈ countsFrom L pos →
      pos ≤ e.2 ∧ ∃ r, L[e.2 - pos]? = some r ∧ r.d_rule.d_matches = e.1
  | [], _, e, h => by simp [countsFrom] at h
  | r :: rest, pos, e, h => by
    simp only [countsFrom, List.mem_cons] at h
    rcases h with h | h
    · subst h
      exact ⟨Nat.le_refl _, r, by simp, rfl⟩
    · obtain ⟨hle, r1, hr1, hm⟩ := countsFrom_lookup rest (pos + 1) e h
      refine ⟨by omega, r1, ?_, hm⟩
      have hidx : e.2 - pos = (e.2 - (pos + 1)) + 1 := by omega
      rw [hidx, List.getElem?_cons_succ]
      exact hr1

/-- Every rule of the list is recorded with its position. -/
theorem mem_countsFrom :
    ∀ (L : List DNSDistRuleAction) (pos q : Nat) (a : DNSDistRuleAction), L[q]? = some a →
      (a.d_rule.d_matches, q + pos) ∈ countsFrom L pos
  | [], _, q, a, h => by simp at h
  | r :: rest, pos, 0, a, h => by
    simp only [List.getElem?_cons_zero, Option.some.injEq] at h
    subst h
    simp [countsFrom]
  | r :: rest, pos, q + 1, a, h => by
    simp only [List.getElem?_cons_succ] at h
    have ih := mem_countsFrom rest (pos + 1) q a h
    have hq : q + (pos + 1) = q + 1 + pos := by omega
    rw [hq] at ih
    simp [countsFrom, ih]

/-- Looking the recorded positions up again gives back the rule list. -/
theorem countsFrom_filterMap :
    ∀ (L : List DNSDistRuleAction) (pos : Nat),
      (countsFrom L pos).filterMap (fun e => L[e.2 - pos]?) = L
  | [], _ => by simp [countsFrom]
  | r :: rest, pos => by
    have ih := countsFrom_filterMap rest (pos + 1)
    have hcongr : (countsFrom rest (pos + 1)).filterMap (fun e => (r :: rest)[e.2 - pos]?)
        = (countsFrom rest (pos + 1)).filterMap (fun e => rest[e.2 - (pos + 1)]?) := by
      apply List.filterMap_congr
      intro e he
      obtain ⟨hle, _⟩ := countsFrom_lookup rest (pos + 1) e he
      have hidx : e.2 - pos = (e.2 - (pos + 1)) + 1 := by omega
      rw [hidx, List.getElem?_cons_succ]
    simp [countsFrom, List.filterMap_cons, hcongr, ih]

/-- The second loop, when every position it is given is in range: it returns, and its
result is the accumulator followed by the rules of a prefix of the pairs.  The prefix has
`top - count` pairs when `count < top`, and is the whole vector otherwise (the test
`count == top` is made after the increment, so it cannot succeed any more). -/
theorem collectResults_eq (L : List DNSDistRuleAction) (top : Nat) :
    ∀ (cs : List (Nat × Nat)) (count : Nat) (acc : List DNSDistRuleAction),
      (∀ e ∈ cs, ∃ r, L[e.2]? = some r) →
      collectResults L top cs count acc
        = some (acc ++ (cs.take (if count < top then top - count else cs.length)).filterMap
            (fun e => L[e.2]?))
  | [], count, acc, _ => by simp [collectResults]
  | e :: rest, count, acc, h => by
    obtain ⟨r, hr⟩ := h e (List.mem_cons_self _ _)
    have hrest : ∀ e1 ∈ rest, ∃ r1, L[e1.2]? = some r1 :=
      fun e1 he1 => h e1 (List.mem_cons_of_mem _ he1)
    have ih := collectResults_eq L top rest (count + 1) (acc ++ [r]) hrest
    by_cases heq : count + 1 = top
    · have h1 : (if count < top then top - count else (e :: rest).length) = 1 := by
        rw [if_pos (by omega)]; omega
      rw [h1]
      simp [collectResults, hr, heq, List.filterMap_cons]
    · by_cases hlt : count < top
      · have h1 : (if count < top then top - count else (e :: rest).length)
            = (top - (count + 1)) + 1 := by
          rw [if_pos hlt]; omega
        have h2 : (if count + 1 < top then top - (count + 1) else rest.length)
            = top - (count + 1) := by
          rw [if_pos (by omega)]
        rw [h2] at ih
        rw [h1]
        simp [collectResults, hr, heq, ih, List.filterMap_cons]
      · have h1 : (if count < top then top - count else (e :: rest).length)
            = rest.length + 1 := by
          rw [if_neg hlt]; simp
        have h2 : (if count + 1 < top then top - (count + 1) else rest.length)
            = rest.length := by
          rw [if_neg (by omega)]
        rw [h2] at ih
        rw [h1]
        simp [collectResults, hr, heq, ih, List.filterMap_cons]

/-- When `g` is defined on every element, `filterMap g` lists the values of `g`. -/
theorem map_some_filterMap {A B : Type} (g : A → Option B) :
    ∀ (l : List A), (∀ a ∈ l, ∃ b, g a = some b) → (l.filterMap g).map some = l.map g
  | [], _ => rfl
  | a :: l, h => by
    obtain ⟨b, hb⟩ := h a (List.mem_cons_self _ _)
    have ih := map_some_filterMap g l (fun a1 h1 => h a1 (List.mem_cons_of_mem _ h1))
    simp [List.filterMap_cons, hb, ih]

/-- The comparator puts `b` strictly before `a` exactly when `b` has more hits. -/
theorem countsComp_eq_false (a b : Nat × Nat) : countsComp b a = false ↔ b.1 ≤ a.1 := by
  simp [countsComp]

/-- Every pair of the sorted vector still holds a valid position and that rule's hits. -/
theorem ranking_lookup (sort : SortFn) (hc : StdSortContract sort countsComp)
    (L : List DNSDistRuleAction) (e : Nat × Nat) (he : e ∈ sort countsComp (countsFrom L 0)) :
    ∃ r, L[e.2]? = some r ∧ r.d_rule.d_matches = e.1 := by
  have hmem : e ∈ countsFrom L 0 := ((hc (countsFrom L 0)).1.mem_iff).1 he
  obtain ⟨_, r, hr, hm⟩ := countsFrom_lookup L 0 e hmem
  exact ⟨r, by simpa using hr, hm⟩

/-- The sorted vector has one pair per rule. -/
theorem ranking_length (sort : SortFn) (hc : StdSortContract sort countsComp)
    (L : List DNSDistRuleAction) : (sort countsComp (countsFrom L 0)).length = L.length := by
  rw [(hc (countsFrom L 0)).1.length_eq]
  have h := congrArg List.length (countsFrom_map_snd L 0)
  simpa using h

/-- With a conforming `std::sort`, `getTopRules` returns: its result is the rules at the
positions of the first `top` sorted pairs, or of all of them when `top = 0`. -/
theorem getTopRules_eq (sort : SortFn) (hc : StdSortContract sort countsComp)
    (L : List DNSDistRuleAction) (top : Nat) :
    getTopRules sort L top
      = some (((sort countsComp (countsFrom L 0)).take
          (if 0 < top then top else L.length)).filterMap (fun e => L[e.2]?)) := by
  have hvalid : ∀ e ∈ sort countsComp (countsFrom L 0), ∃ r, L[e.2]? = some r := by
    intro e he
    obtain ⟨r, hr, _⟩ := ranking_lookup sort hc L e he
    exact ⟨r, hr⟩
  have hcc : collectCounts L 0 [] = countsFrom L 0 := by
    simp [collectCounts_eq_append]
  unfold getTopRules
  simp only [hcc]
  rw [collectResults_eq L top _ 0 [] hvalid, ranking_length sort hc L]
  simp

/-- The pairs of a prefix of the sorted vector give a hit-ordered list of rules. -/
theorem ranking_take_sorted (sort : SortFn) (hc : StdSortContract sort countsComp)
    (L : List DNSDistRuleAction) (k : Nat) :
    (((sort countsComp (countsFrom L 0)).take k).filterMap (fun e => L[e.2]?)).Pairwise
      (fun a b => b.d_rule.d_matches ≤ a.d_rule.d_matches) := by
  have hs : ((sort countsComp (countsFrom L 0)).take k).Pairwise
      (fun a b => countsComp b a = false ∧ a ∈ sort countsComp (countsFrom L 0)
        ∧ b ∈ sort countsComp (countsFrom L 0)) := by
    have h1 := (hc (countsFrom L 0)).2.sublist (List.take_sublist k _)
    have h2 : ∀ x ∈ (sort countsComp (countsFrom L 0)).take k,
        x ∈ sort countsComp (countsFrom L 0) := fun x hx => (List.take_sublist k _).subset hx
    rw [List.pairwise_iff_forall_sublist] at h1 ⊢
    intro a b hab
    exact ⟨h1 hab, h2 a (hab.subset (by simp)), h2 b (hab.subset (by simp))⟩
  refine List.Pairwise.filterMap _ ?_ hs
  intro a b ⟨hab, ha, hb⟩ ra hra rb hrb
  obtain ⟨r1, hr1, hm1⟩ := ranking_lookup sort hc L a ha
  obtain ⟨r2, hr2, hm2⟩ := ranking_lookup sort hc L b hb
  rw [Option.mem_def] at hra hrb
  rw [hr1] at hra
  rw [hr2] at hrb
  cases hra
  cases hrb
  rw [hm1, hm2]
  exact (countsComp_eq_false a b).1 hab

/-! ## Concrete sorting routines -/

/-- Insertion sort meets the contract of `std::sort` for `countsComp`. -/
theorem insertionStdSort_contract : StdSortContract insertionStdSort countsComp := by
  intro l
  exact ⟨List.perm_insertionSort _ l, List.sorted_insertionSort _ l⟩

/-- Sorting the reversed vector meets the contract of `std::sort` for `countsComp`. -/
theorem reversingStdSort_contract : StdSortContract reversingStdSort countsComp := by
  intro l
  exact ⟨(List.perm_insertionSort _ l.reverse).trans (List.reverse_perm l),
    List.sorted_insertionSort _ l.reverse⟩

/-! ## The insertion sort of libstdc++ on short vectors -/

/-- C8: with a conforming `std::sort` and `N ≥ 1`, `getTopRules L N` returns a list `rs`
that consists of the rules at pairwise distinct positions `ps` of `L` (each entry of `L`
taken at most once), is in non-increasing order of hit count, and is such that no entry of
`L` at a position outside `ps` has more hits than a returned entry. -/
theorem getTopRules_returns_top_ranked (sort : SortFn) (hc : StdSortContract sort countsComp)
    (L : List DNSDistRuleAction) (N : Nat) (hN : 1 ≤ N) :
    ∃ (ps : List Nat) (rs : List DNSDistRuleAction),
      getTopRules sort L N = some rs
      ∧ rs.map some = ps.map (fun p => L[p]?)
      ∧ ps.Nodup
      ∧ rs.Pairwise (fun a b => b.d_rule.d_matches ≤ a.d_rule.d_matches)
      ∧ (∀ q a, L[q]? = some a → q ∉ ps →
          ∀ b ∈ rs, a.d_rule.d_matches ≤ b.d_rule.d_matches) := by
  have hk : (if 0 < N then N else L.length) = N := by rw [if_pos (by omega)]
  have hget := getTopRules_eq sort hc L N
  rw [hk] at hget
  generalize hS : sort countsComp (countsFrom L 0) = S at hget
  have hperm : S.Perm (countsFrom L 0) := by rw [← hS]; exact (hc _).1
  have hsorted : S.Pairwise (fun a b => countsComp b a = false) := by rw [← hS]; exact (hc _).2
  have hlook : ∀ e ∈ S, ∃ r, L[e.2]? = some r ∧ r.d_rule.d_matches = e.1 := by
    intro e he; rw [← hS] at he; exact ranking_lookup sort hc L e he
  refine ⟨(S.take N).map Prod.snd, (S.take N).filterMap (fun e => L[e.2]?), hget, ?_, ?_, ?_, ?_⟩
  · rw [map_some_filterMap, List.map_map]
    · rfl
    · intro e he
      obtain ⟨r, hr, _⟩ := hlook e ((List.take_sublist N S).subset he)
      exact ⟨r, hr⟩
  · have hnd : (S.map Prod.snd).Nodup := by
      rw [(hperm.map Prod.snd).nodup_iff, countsFrom_map_snd]
      exact List.nodup_range' 0 L.length
    exact hnd.sublist ((List.take_sublist N S).map Prod.snd)
  · have h := ranking_take_sorted sort hc L N
    rw [hS] at h
    exact h
  · intro q a hq hnot b hb
    have hmemC : (a.d_rule.d_matches, q) ∈ countsFrom L 0 := by
      simpa using mem_countsFrom L 0 q a hq
    have hmemS : (a.d_rule.d_matches, q) ∈ S := hperm.mem_iff.2 hmemC
    have hsplit : (a.d_rule.d_matches, q) ∈ S.take N ++ S.drop N := by
      rw [List.take_append_drop]; exact hmemS
    have hdrop : (a.d_rule.d_matches, q) ∈ S.drop N := by
      rcases List.mem_append.1 hsplit with h | h
      · exact absurd (List.mem_map.2 ⟨_, h, rfl⟩) hnot
      · exact h
    obtain ⟨e, he, heb⟩ := List.mem_filterMap.1 hb
    obtain ⟨r, hr, hm⟩ := hlook e ((List.take_sublist N S).subset he)
    rw [hr] at heb
    cases heb
    have hpw : (S.take N ++ S.drop N).Pairwise (fun a b => countsComp b a = false) := by
      rw [List.take_append_drop]; exact hsorted
    have := (List.pairwise_append.1 hpw).2.2 e he _ hdrop
    rw [countsComp_eq_false] at this
    rw [hm]
    exact this

/-- C8 on three rules with hits 5, 7, 5 and `N = 2`, sorted by insertion sort. -/
theorem getTopRules_returns_top_ranked_witness :
    StdSortContract insertionStdSort countsComp ∧ 1 ≤ 2
    ∧ ∃ (ps : List Nat) (rs : List DNSDistRuleAction),
      getTopRules insertionStdSort [sampleEntry 1 5, sampleEntry 2 7, sampleEntry 3 5] 2
        = some rs
      ∧ rs.map some
        = ps.map (fun p => [sampleEntry 1 5, sampleEntry 2 7, sampleEntry 3 5][p]?)
      ∧ ps.Nodup
      ∧ rs.Pairwise (fun a b => b.d_rule.d_matches ≤ a.d_rule.d_matches)
      ∧ (∀ q a, [sampleEntry 1 5, sampleEntry 2 7, sampleEntry 3 5][q]? = some a → q ∉ ps →
          ∀ b ∈ rs, a.d_rule.d_matches ≤ b.d_rule.d_matches) :=
  ⟨insertionStdSort_contract, by decide,
    getTopRules_returns_top_ranked insertionStdSort insertionStdSort_contract
      [sampleEntry 1 5, sampleEntry 2 7, sampleEntry 3 5] 2 (by decide)⟩

/-- C10: with a conforming `std::sort` and `N ≥ length L`, `getTopRules L N` returns a
permutation of the whole of `L`, of the same length, in non-increasing order of hit count. -/
theorem getTopRules_returns_all_sorted (sort : SortFn) (hc : StdSortContract sort countsComp)
    (L : List DNSDistRuleAction) (N : Nat) (hN : L.length ≤ N) :
    ∃ rs : List DNSDistRuleAction,
      getTopRules sort L N = some rs
      ∧ rs.Perm L
      ∧ rs.length = L.length
      ∧ rs.Pairwise (fun a b => b.d_rule.d_matches ≤ a.d_rule.d_matches) := by
  have hlen := ranking_length sort hc L
  have hk : (sort countsComp (countsFrom L 0)).length ≤ (if 0 < N then N else L.length) := by
    split <;> omega
  have hget := getTopRules_eq sort hc L N
  have hsorted := ranking_take_sorted sort hc L (if 0 < N then N else L.length)
  rw [List.take_of_length_le hk] at hget hsorted
  have hperm : ((sort countsComp (countsFrom L 0)).filterMap (fun e => L[e.2]?)).Perm L := by
    have h1 := (hc (countsFrom L 0)).1.filterMap (fun e => L[e.2]?)
    have h2 := countsFrom_filterMap L 0
    simp only [Nat.sub_zero] at h2
    rw [h2] at h1
    exact h1
  exact ⟨_, hget, hperm, hperm.length_eq, hsorted⟩

/-- C10 on three rules with hits 5, 7, 5 and `N = 10`, sorted by the reversing sort. -/
theorem getTopRules_returns_all_sorted_witness :
    StdSortContract reversingStdSort countsComp
    ∧ [sampleEntry 1 5, sampleEntry 2 7, sampleEntry 3 5].length ≤ 10
    ∧ ∃ rs : List DNSDistRuleAction,
      getTopRules reversingStdSort [sampleEntry 1 5, sampleEntry 2 7, sampleEntry 3 5] 10
        = some rs
      ∧ rs.Perm [sampleEntry 1 5, sampleEntry 2 7, sampleEntry 3 5]
      ∧ rs.length = [sampleEntry 1 5, sampleEntry 2 7, sampleEntry 3 5].length
      ∧ rs.Pairwise (fun a b => b.d_rule.d_matches ≤ a.d_rule.d_matches) :=
  ⟨reversingStdSort_contract, by decide,
    getTopRules_returns_all_sorted reversingStdSort reversingStdSort_contract
      [sampleEntry 1 5, sampleEntry 2 7, sampleEntry 3 5] 10 (by decide)⟩

/-! ## `getTopRules`: entries of equal hit count -/

/-- With a conforming `std::sort`, `getTopRules L N` returns `min N (length L)` entries when
`N ≥ 1`, and all `length L` entries when `N = 0`. -/
theorem getTopRules_length (sort : SortFn) (hc : StdSortContract sort countsComp)
    (L : List DNSDistRuleAction) (N : Nat) :
    ∃ rs, getTopRules sort L N = some rs
      ∧ rs.length = if 0 < N then min N L.length else L.length := by
  refine ⟨_, getTopRules_eq sort hc L N, ?_⟩
  have hmap := congrArg List.length (map_some_filterMap (fun e : Nat × Nat => L[e.2]?)
    ((sort countsComp (countsFrom L 0)).take (if 0 < N then N else L.length))
    (fun e he => by
      obtain ⟨r, hr, _⟩ := ranking_lookup sort hc L e ((List.take_sublist _ _).subset he)
      exact ⟨r, hr⟩))
  simp only [List.length_map, List.length_take, ranking_length sort hc L] at hmap
  rw [hmap]
  split <;> simp

/-- C11, evaluated at `N = 0` on a one-entry list: the claim gives `min 0 1 = 0` entries,
`getTopRules` returns the entry (the test `count == top` is made after the increment and
never succeeds for `top = 0`); at `N = 1` and `N = 2` the same list gives one entry. -/
theorem getTopRules_zero_returns_all :
    getTopRules insertionStdSort [sampleEntry 1 5] 0 = some [sampleEntry 1 5]
    ∧ getTopRules insertionStdSort [sampleEntry 1 5, sampleEntry 2 7] 0
        = some [sampleEntry 2 7, sampleEntry 1 5]
    ∧ getTopRules insertionStdSort [sampleEntry 1 5, sampleEntry 2 7] 1
        = some [sampleEntry 2 7]
    ∧ getTopRules insertionStdSort [sampleEntry 1 5] 2 = some [sampleEntry 1 5] := by
  decide

/-! ## Identities stay unique -/

/-- What `mvRule` publishes on valid indices is a rearrangement of the list. -/
theorem eraseIdx_insertIdx_perm {T : Type} (L : List T) (f k : Nat) (hf : f < L.length)
    (hk : k ≤ (L.eraseIdx f).length) : ((L.eraseIdx f).insertIdx k L[f]).Perm L := by
  refine (List.perm_insertIdx L[f] (L.eraseIdx f) hk).trans ?_
  have hsplit : L = L.take f ++ L[f] :: L.drop (f + 1) := by
    rw [← List.drop_eq_getElem_cons hf, List.take_append_drop]
  rw [List.eraseIdx_eq_take_drop_succ]
  conv => rhs; rw [hsplit]
  exact List.perm_middle.symm

/-- Every list that `rmRule` publishes is a sublist of the list it was given. -/
theorem rmRule_state_sublist (order : EvalOrder) (getUniqueID : String → UUID)
    (L : List DNSDistRuleAction) (id : RuleSelector) (R : List DNSDistRuleAction)
    (h : (rmRule order getUniqueID L id).state = some R) : R.Sublist L := by
  cases id with
  | pos n =>
    by_cases hn : n ≥ L.length
    · simp [rmRule, hn, Outcome.fail] at h
    · simp only [rmRule, hn, if_false, Outcome.publish, Option.some.injEq] at h
      rw [← h]
      exact List.eraseIdx_sublist L n
  | str s =>
    simp only [rmRule] at h
    split at h
    · simp [Outcome.fail] at h
    · simp only [Outcome.publish, Option.some.injEq] at h
      rw [← h]
      exact List.filter_sublist L

/-- Every list that `moveRuleToTop` or `mvRule` publishes is a rearrangement of the list it
was given. -/
theorem move_state_perm {T : Type} (L : List T) (from_ to_ : Nat) (R : List T)
    (h : (moveRuleToTop L).state = some R ∨ (mvRule L from_ to_).state = some R) :
    R.Perm L := by
  rcases h with h | h
  · cases hl : L.getLast? with
    | none => simp [moveRuleToTop, hl, Outcome.silent] at h
    | some e =>
      obtain ⟨xs, rfl⟩ := List.getLast?_eq_some_iff.1 hl
      have he : (xs ++ [e]).eraseIdx ((xs ++ [e]).length - 1) = xs := by
        have hlen : (xs ++ [e]).length - 1 = xs.length := by simp
        rw [hlen, List.eraseIdx_append_of_length_le (Nat.le_refl _)]
        simp
      simp only [moveRuleToTop, hl, he, List.insertIdx_zero, Outcome.publish,
        Option.some.injEq] at h
      rw [← h]
      exact (List.perm_append_singleton e xs).symm
  · by_cases hg : from_ ≥ L.length ∨ to_ > L.length
    · simp [mvRule, hg, Outcome.fail] at h
    · have hf : from_ < L.length := by omega
      have hlen : (L.eraseIdx from_).length = L.length - 1 := List.length_eraseIdx_of_lt hf
      rw [mvRule_eq_insertIdx L from_ to_ hf (by omega)] at h
      simp only [Outcome.publish, Option.some.injEq] at h
      rw [← h]
      exact eraseIdx_insertIdx_perm L from_ _ hf (by split <;> omega)

/-- C14: when the identities of `L` are pairwise distinct, every list published by `rmRule`
(by position or by identity, in either evaluation order), `moveRuleToTop`, `mvRule` or
`clearRules`, for any arguments, has pairwise distinct identities and consists of entries of
`L` only. -/
theorem management_ops_keep_ids_unique (order : EvalOrder) (getUniqueID : String → UUID)
    (L : List DNSDistRuleAction) (id : RuleSelector) (from_ to_ : Nat)
    (hL : L.Pairwise (fun a b => a.d_id ≠ b.d_id)) (R : List DNSDistRuleAction)
    (hR : (rmRule order getUniqueID L id).state = some R
      ∨ (moveRuleToTop L).state = some R
      ∨ (mvRule L from_ to_).state = some R
      ∨ (clearRules L).state = some R) :
    R.Pairwise (fun a b => a.d_id ≠ b.d_id) ∧ ∀ x ∈ R, x ∈ L := by
  rcases hR with h | h | h | h
  · have hs := rmRule_state_sublist order getUniqueID L id R h
    exact ⟨hL.sublist hs, fun x hx => hs.subset hx⟩
  · have hp := move_state_perm L from_ to_ R (Or.inl h)
    exact ⟨(hp.pairwise_iff (fun h1 => Ne.symm h1)).2 hL, fun x hx => hp.mem_iff.1 hx⟩
  · have hp := move_state_perm L from_ to_ R (Or.inr h)
    exact ⟨(hp.pairwise_iff (fun h1 => Ne.symm h1)).2 hL, fun x hx => hp.mem_iff.1 hx⟩
  · simp only [clearRules, Outcome.publish, Option.some.injEq] at h
    subst h
    exact ⟨List.Pairwise.nil, fun x hx => by simp at hx⟩

/-- C14 on three entries of identities 1, 2, 3, moved with `mvRule L 0 3`. -/
theorem management_ops_keep_ids_unique_witness :
    [sampleEntry 1 0, sampleEntry 2 0, sampleEntry 3 0].Pairwise (fun a b => a.d_id ≠ b.d_id)
    ∧ (mvRule [sampleEntry 1 0, sampleEntry 2 0, sampleEntry 3 0] 0 3).state
        = some [sampleEntry 2 0, sampleEntry 3 0, sampleEntry 1 0]
    ∧ [sampleEntry 2 0, sampleEntry 3 0, sampleEntry 1 0].Pairwise
        (fun a b => a.d_id ≠ b.d_id)
    ∧ ∀ x ∈ [sampleEntry 2 0, sampleEntry 3 0, sampleEntry 1 0],
        x ∈ [sampleEntry 1 0, sampleEntry 2 0, sampleEntry 3 0] :=
  ⟨by decide, by decide,
    management_ops_keep_ids_unique .rightFirst sampleUniqueID
      [sampleEntry 1 0, sampleEntry 2 0, sampleEntry 3 0] (.pos 0) 0 3 (by decide)
      [sampleEntry 2 0, sampleEntry 3 0, sampleEntry 1 0] (Or.inr (Or.inr (Or.inl (by decide))))⟩

/-! ## `makeRule` -/

/-- C12: a single string that `addMask` accepts gives a `NetmaskGroupRule` whose set holds
the parsed mask; a single string that `addMask` rejects gives a `SuffixMatchNodeRule` whose
set holds `DNSName(s)`; a single `DNSName` and every table of `DNSName`s give one
`SuffixMatchNodeRule` whose set holds all the names of the input.  A string that is neither
a mask nor a valid `DNSName` gives no rule: the exception of the constructor leaves
`makeRule`. -/
theorem makeRule_construction_fallback {Netmask DNSName : Type}
    (addMask : String → Option Netmask) (mkDNSName : String → Option DNSName) :
    (∀ s m, addMask s = some m →
      makeRule addMask mkDNSName (.str s) = some (MadeRule.NetmaskGroupRule [m] true))
    ∧ (∀ s n, addMask s = none → mkDNSName s = some n →
      makeRule addMask mkDNSName (.str s) = some (MadeRule.SuffixMatchNodeRule [n]))
    ∧ (∀ d, makeRule addMask mkDNSName (.name d) = some (MadeRule.SuffixMatchNodeRule [d]))
    ∧ (∀ v, makeRule addMask mkDNSName (.names v)
        = some (MadeRule.SuffixMatchNodeRule (v.map Prod.snd)))
    ∧ (∀ s, addMask s = none → mkDNSName s = none →
        makeRule addMask mkDNSName (.str s) = none) := by
  refine ⟨?_, ?_, ?_, ?_, ?_⟩
  · intro s m h
    simp [makeRule, makeRule.add, makeRule.finish, h]
  · intro s n h1 h2
    simp [makeRule, makeRule.add, makeRule.finish, h1, h2]
  · intro d
    simp [makeRule, makeRule.finish]
  · intro v
    simp [makeRule, makeRule.finish]
  · intro s h1 h2
    simp [makeRule, makeRule.add, h1, h2]

/-- C12 on the strings `10.0.0.0/8` and `example.com`, and on one and two names. -/
theorem makeRule_construction_fallback_witness :
    makeRule sampleAddMask sampleDNSName (.str "10.0.0.0/8")
        = some (MadeRule.NetmaskGroupRule ["10.0.0.0/8"] true)
    ∧ makeRule sampleAddMask sampleDNSName (.str "example.com")
        = some (MadeRule.SuffixMatchNodeRule ["example.com"])
    ∧ makeRule sampleAddMask sampleDNSName (.name "example.org")
        = some (MadeRule.SuffixMatchNodeRule ["example.org"])
    ∧ makeRule sampleAddMask sampleDNSName (.names [(1, "example.org"), (2, "10.0.0.0/8")])
        = some (MadeRule.SuffixMatchNodeRule ["example.org", "10.0.0.0/8"]) :=
  ⟨(makeRule_construction_fallback sampleAddMask sampleDNSName).1 "10.0.0.0/8" "10.0.0.0/8"
      (by decide),
   (makeRule_construction_fallback sampleAddMask sampleDNSName).2.1 "example.com" "example.com"
      (by decide) (by decide),
   (makeRule_construction_fallback sampleAddMask sampleDNSName).2.2.1 "example.org",
   (makeRule_construction_fallback sampleAddMask sampleDNSName).2.2.2.1
      [(1, "example.org"), (2, "10.0.0.0/8")]⟩

/-! ## `parseRuleParams` -/

/-- Started with the counter at `c`, successive calls are given `c`, `c + 1`, ... modulo
`2 ^ 64`. -/
theorem creationOrders_eq {G : Type} (getUniqueID : String → UUID) (fresh : G → UUID × G) :
    ∀ (calls : List (Option LuaRuleParams)) (st : RuleParamsState G),
      st.s_creationOrder < 2 ^ 64 →
      creationOrders getUniqueID fresh st calls
        = (List.range calls.length).map (fun k => (st.s_creationOrder + k) % 2 ^ 64)
  | [], _, _ => by simp [creationOrders]
  | p :: rest, st, h => by
    have ih := creationOrders_eq getUniqueID fresh rest
      (parseRuleParams getUniqueID fresh st p).state (Nat.mod_lt _ (by norm_num))
    have hst : (parseRuleParams getUniqueID fresh st p).state.s_creationOrder
        = (st.s_creationOrder + 1) % 2 ^ 64 := rfl
    have hco : (parseRuleParams getUniqueID fresh st p).creationOrder = st.s_creationOrder :=
      rfl
    rw [creationOrders, ih, hst, hco, List.length_cons, List.range_succ_eq_map]
    simp only [List.map_cons, List.map_map, Nat.add_zero, Nat.mod_eq_of_lt h]
    congr 1
    apply List.map_congr_left
    intro k _
    simp only [Function.comp_apply, Nat.succ_eq_add_one]
    omega

/-- C13: every call of `parseRuleParams` advances the counter by one modulo `2 ^ 64`,
whatever its parameters; in a sequence of calls that starts with the counter at `0` the
`k`-th call (from 0) is given `creationOrder = k mod 2 ^ 64`; and as long as there are at
most `2 ^ 64` calls, a later call is given a strictly larger creation order than an
earlier one. -/
theorem parseRuleParams_creation_order {G : Type} (getUniqueID : String → UUID)
    (fresh : G → UUID × G) (generator : G) (calls : List (Option LuaRuleParams)) :
    (∀ (st : RuleParamsState G) (params : Option LuaRuleParams),
      (parseRuleParams getUniqueID fresh st params).creationOrder = st.s_creationOrder
      ∧ (parseRuleParams getUniqueID fresh st params).state.s_creationOrder
          = (st.s_creationOrder + 1) % 2 ^ 64)
    ∧ creationOrders getUniqueID fresh ⟨0, generator⟩ calls
        = (List.range calls.length).map (fun k => k % 2 ^ 64)
    ∧ (calls.length ≤ 2 ^ 64 →
        (creationOrders getUniqueID fresh ⟨0, generator⟩ calls).Pairwise (fun a b => a < b)) := by
  have heq := creationOrders_eq getUniqueID fresh calls ⟨0, generator⟩ (by norm_num)
  simp only [Nat.zero_add] at heq
  refine ⟨fun st params => ⟨rfl, rfl⟩, heq, ?_⟩
  intro hlen
  rw [heq, List.pairwise_map]
  refine (List.pairwise_lt_range calls.length).imp_of_mem ?_
  intro a b ha hb hab
  rw [List.mem_range] at ha hb
  rw [Nat.mod_eq_of_lt (by omega), Nat.mod_eq_of_lt (by omega)]
  exact hab

/-- C13 on three calls: without a table, with a uuid, with an empty uuid. -/
theorem parseRuleParams_creation_order_witness :
    creationOrders sampleUniqueID sampleFresh ⟨0, 0⟩
        [none, some (sampleParams "abc"), some (sampleParams "")]
      = [0, 1, 2]
    ∧ [none, some (sampleParams "abc"), some (sampleParams "")].length ≤ 2 ^ 64
    ∧ (creationOrders sampleUniqueID sampleFresh ⟨0, 0⟩
        [none, some (sampleParams "abc"), some (sampleParams "")]).Pairwise
          (fun a b => a < b) :=
  ⟨(parseRuleParams_creation_order sampleUniqueID sampleFresh 0
      [none, some (sampleParams "abc"), some (sampleParams "")]).2.1,
   by decide,
   (parseRuleParams_creation_order sampleUniqueID sampleFresh 0
      [none, some (sampleParams "abc"), some (sampleParams "")]).2.2 (by decide)⟩

/-- C18: a call whose table carries a non-empty `uuid` string `s` is given the identity
`getUniqueID s`, whatever the counter, the generator state and the rest of the table, and
leaves the generator untouched; so two such calls with the same `s` are given the same
identity.  A call without a table, with a table that has no `uuid` key, or with an empty
`uuid` string is given the identity that the generator produces. -/
theorem parseRuleParams_identity {G : Type} (getUniqueID : String → UUID)
    (fresh : G → UUID × G) :
    (∀ (st : RuleParamsState G) (params : LuaRuleParams) (s : String),
      params "uuid" = some s → s ≠ "" →
      (parseRuleParams getUniqueID fresh st (some params)).uuid = getUniqueID s
      ∧ (parseRuleParams getUniqueID fresh st (some params)).state.generator = st.generator)
    ∧ (∀ (st1 st2 : RuleParamsState G) (p1 p2 : LuaRuleParams) (s : String),
      p1 "uuid" = some s → p2 "uuid" = some s → s ≠ "" →
      (parseRuleParams getUniqueID fresh st1 (some p1)).uuid
        = (parseRuleParams getUniqueID fresh st2 (some p2)).uuid)
    ∧ (∀ (st : RuleParamsState G),
      (parseRuleParams getUniqueID fresh st none).uuid = (fresh st.generator).1)
    ∧ (∀ (st : RuleParamsState G) (params : LuaRuleParams),
      params "uuid" = none ∨ params "uuid" = some "" →
      (parseRuleParams getUniqueID fresh st (some params)).uuid = (fresh st.generator).1) := by
  have hset : ∀ (st : RuleParamsState G) (params : LuaRuleParams) (s : String),
      params "uuid" = some s → s ≠ "" →
      (parseRuleParams getUniqueID fresh st (some params)).uuid = getUniqueID s
      ∧ (parseRuleParams getUniqueID fresh st (some params)).state.generator
          = st.generator := by
    intro st params s h hs
    simp [parseRuleParams, makeRuleID, h, hs]
  refine ⟨hset, ?_, ?_, ?_⟩
  · intro st1 st2 p1 p2 s h1 h2 hs
    rw [(hset st1 p1 s h1 hs).1, (hset st2 p2 s h2 hs).1]
  · intro st
    simp [parseRuleParams, makeRuleID]
  · intro st params h
    rcases h with h | h <;> simp [parseRuleParams, makeRuleID, h]

/-- C18 on the string `abc`, with two different counters and generator states, and on a
table whose `uuid` is empty. -/
theorem parseRuleParams_identity_witness :
    (parseRuleParams sampleUniqueID sampleFresh ⟨7, 5⟩ (some (sampleParams "abc"))).uuid
        = sampleUniqueID "abc"
    ∧ (parseRuleParams sampleUniqueID sampleFresh ⟨7, 5⟩
        (some (sampleParams "abc"))).state.generator = 5
    ∧ (parseRuleParams sampleUniqueID sampleFresh ⟨7, 5⟩ (some (sampleParams "abc"))).uuid
        = (parseRuleParams sampleUniqueID sampleFresh ⟨0, 9⟩ (some (sampleParams "abc"))).uuid
    ∧ (parseRuleParams sampleUniqueID sampleFresh ⟨7, 5⟩ (some (sampleParams ""))).uuid
        = (sampleFresh 5).1 :=
  ⟨((parseRuleParams_identity sampleUniqueID sampleFresh).1 ⟨7, 5⟩ (sampleParams "abc") "abc"
      (by decide) (by decide)).1,
   ((parseRuleParams_identity sampleUniqueID sampleFresh).1 ⟨7, 5⟩ (sampleParams "abc") "abc"
      (by decide) (by decide)).2,
   (parseRuleParams_identity sampleUniqueID sampleFresh).2.1 ⟨7, 5⟩ ⟨0, 9⟩
      (sampleParams "abc") (sampleParams "abc") "abc" (by decide) (by decide) (by decide),
   (parseRuleParams_identity sampleUniqueID sampleFresh).2.2.2 ⟨7, 5⟩ (sampleParams "")
      (Or.inr (by decide))⟩

/-! ## Rule constructors -/

/-- C17: for a name `val` whose code `chartocode val` fits the 16 bits of `qtype`,
`QTypeRule` throws exactly when the code is 0; for a code other than 0 it returns the rule
for that code; and it returns a rule for every integer argument. -/
theorem QTypeRule_fails_iff_no_code (chartocode : String → Nat) (val : String)
    (hcode : chartocode val < 65536) :
    ((∃ msg, QTypeRule chartocode (.str val) = .error msg) ↔ chartocode val = 0)
    ∧ (chartocode val = 0 → ∀ r, QTypeRule chartocode (.str val) ≠ .ok r)
    ∧ (chartocode val ≠ 0 → QTypeRule chartocode (.str val) = .ok ⟨chartocode val⟩)
    ∧ (∀ dir : Int, ∃ r, QTypeRule chartocode (.int dir) = .ok r) := by
  have hmod : chartocode val % 65536 = chartocode val := Nat.mod_eq_of_lt hcode
  by_cases h0 : chartocode val = 0
  · have herr : QTypeRule chartocode (.str val)
        = .error ("Unable to convert '" ++ val ++ "' to a DNS type") := by
      simp [QTypeRule, h0]
    refine ⟨⟨fun _ => h0, fun _ => ⟨_, herr⟩⟩, fun _ r => ?_, fun h => absurd h0 h,
      fun dir => ⟨_, rfl⟩⟩
    rw [herr]
    simp
  · have hok : QTypeRule chartocode (.str val) = .ok ⟨chartocode val⟩ := by
      simp [QTypeRule, hmod, h0]
    refine ⟨⟨fun ⟨msg, hm⟩ => ?_, fun h => absurd h h0⟩, fun h => absurd h h0, fun _ => hok,
      fun dir => ⟨_, rfl⟩⟩
    rw [hok] at hm
    simp at hm

/-- C17 on the recognised name `AAAA` (code 28) and the unrecognised name `nosuchtype`. -/
theorem QTypeRule_fails_iff_no_code_witness :
    sampleChartocode "AAAA" < 65536
    ∧ QTypeRule sampleChartocode (.str "AAAA") = .ok ⟨28⟩
    ∧ sampleChartocode "nosuchtype" < 65536
    ∧ (∃ msg, QTypeRule sampleChartocode (.str "nosuchtype") = .error msg) :=
  ⟨by decide,
   (QTypeRule_fails_iff_no_code sampleChartocode "AAAA" (by decide)).2.2.1 (by decide),
   by decide,
   (QTypeRule_fails_iff_no_code sampleChartocode "nosuchtype" (by decide)).1.2 (by decide)⟩

/-- Converting a 32-bit unsigned value to `int` and back gives the value again. -/
theorem toUInt32_toInt32 (qps : Nat) (h : qps < 2 ^ 32) : toUInt32 (toInt32 qps) = qps := by
  unfold toUInt32 toInt32
  have h1 : (((qps : Int) + 2 ^ 31) % 2 ^ 32 - 2 ^ 31) % 2 ^ 32 = (qps : Int) := by omega
  rw [h1]
  simp

/-- C19: for every 32-bit unsigned `qps`, a `MaxQPSIPRule` built without `burst` receives
the burst `qps`, whatever the other arguments; built with a `burst`, it receives that
value converted to `unsigned int`, which is the value itself when it is not negative. -/
theorem MaxQPSIPRule_burst_defaults_to_qps (qps : Nat) (hq : qps < 2 ^ 32)
    (ipv4trunc ipv6trunc : Option Int) (expiration cleanupDelay scanFraction : Option Nat) :
    (MaxQPSIPRule qps ipv4trunc ipv6trunc none expiration cleanupDelay scanFraction).d_burst
        = qps
    ∧ (MaxQPSIPRule qps ipv4trunc ipv6trunc none expiration cleanupDelay scanFraction).d_qps
        = qps
    ∧ (∀ b : Int,
        (MaxQPSIPRule qps ipv4trunc ipv6trunc (some b) expiration cleanupDelay
          scanFraction).d_burst = toUInt32 b)
    ∧ (∀ b : Int, 0 ≤ b → b < 2 ^ 31 →
        ((MaxQPSIPRule qps ipv4trunc ipv6trunc (some b) expiration cleanupDelay
          scanFraction).d_burst : Int) = b) := by
  unfold MaxQPSIPRule
  dsimp only
  refine ⟨?_, rfl, ?_, ?_⟩
  · rw [Option.getD_none]
    exact toUInt32_toInt32 qps hq
  · intro b
    rw [Option.getD_some]
  · intro b h0 h1
    rw [Option.getD_some]
    unfold toUInt32
    have h2 : b % 2 ^ 32 = b := by omega
    rw [h2]
    omega

/-- C19 on `qps = 4000000000`, which does not fit an `int`, and on `qps = 10` with a burst
of 25. -/
theorem MaxQPSIPRule_burst_defaults_to_qps_witness :
    4000000000 < 2 ^ 32
    ∧ (MaxQPSIPRule 4000000000 none none none none none none).d_burst = 4000000000
    ∧ (MaxQPSIPRule 10 none none (some 25) none none none).d_burst = toUInt32 25 :=
  ⟨by norm_num,
   (MaxQPSIPRule_burst_defaults_to_qps 4000000000 (by norm_num) none none none none none).1,
   (MaxQPSIPRule_burst_defaults_to_qps 10 (by norm_num) none none none none none).2.2.1 25⟩

/-! ## `rulesToString` -/

/-- When no action pointer is null the loop returns its accumulator followed by the rows. -/
theorem rulesToString_loop_eq (row : Nat → DNSDistRuleAction → DNSAction → List Char) :
    ∀ (rules : List DNSDistRuleAction) (num : Nat) (acc : List Char),
      (∀ e ∈ rules, e.d_action ≠ none) →
      rulesToString.loop row rules num acc
        = some (acc ++ (rulesToString.rows row rules num).flatten)
  | [], _, acc, _ => by simp [rulesToString.loop, rulesToString.rows]
  | lim :: rest, num, acc, h => by
    have hrest : ∀ e ∈ rest, e.d_action ≠ none := fun e he => h e (List.mem_cons_of_mem _ he)
    cases ha : lim.d_action with
    | none => exact absurd ha (h lim (List.mem_cons_self _ _))
    | some action =>
      simp [rulesToString.loop, rulesToString.rows, ha,
        rulesToString_loop_eq row rest (num + 1) _ hrest]

/-- There is one row per entry. -/
theorem rulesToString_rows_length (row : Nat → DNSDistRuleAction → DNSAction → List Char) :
    ∀ (rules : List DNSDistRuleAction) (num : Nat),
      (rulesToString.rows row rules num).length = rules.length
  | [], _ => rfl
  | lim :: rest, num => by
    simp [rulesToString.rows, rulesToString_rows_length row rest (num + 1)]

/-- The row at index `i` is made from the entry at index `i` and the number `num + i`. -/
theorem rulesToString_rows_getElem? (row : Nat → DNSDistRuleAction → DNSAction → List Char) :
    ∀ (rules : List DNSDistRuleAction) (num i : Nat) (e : DNSDistRuleAction) (a : DNSAction),
      rules[i]? = some e → e.d_action = some a →
      (rulesToString.rows row rules num)[i]? = some (row (num + i) e a)
  | [], _, i, e, a, h, _ => by simp at h
  | lim :: rest, num, 0, e, a, h, ha => by
    simp only [List.getElem?_cons_zero, Option.some.injEq] at h
    subst h
    simp [rulesToString.rows, ha]
  | lim :: rest, num, i + 1, e, a, h, ha => by
    simp only [List.getElem?_cons_succ] at h
    have ih := rulesToString_rows_getElem? row rest (num + 1) i e a h ha
    have hn : num + 1 + i = num + (i + 1) := by omega
    rw [hn] at ih
    simp [rulesToString.rows, ih]

/-- Every row comes from an entry of the list and its action. -/
theorem rulesToString_mem_rows (row : Nat → DNSDistRuleAction → DNSAction → List Char) :
    ∀ (rules : List DNSDistRuleAction) (num : Nat) (l : List Char),
      (∀ e ∈ rules, e.d_action ≠ none) → l ∈ rulesToString.rows row rules num →
      ∃ k e a, e ∈ rules ∧ e.d_action = some a ∧ l = row k e a
  | [], _, l, _, hl => by simp [rulesToString.rows] at hl
  | lim :: rest, num, l, h, hl => by
    simp only [rulesToString.rows, List.mem_cons] at hl
    rcases hl with hl | hl
    · cases ha : lim.d_action with
      | none => exact absurd ha (h lim (List.mem_cons_self _ _))
      | some action =>
        rw [ha] at hl
        exact ⟨num, lim, action, List.mem_cons_self _ _, ha, hl⟩
    · obtain ⟨k, e, a, he, ha, hrow⟩ := rulesToString_mem_rows row rest (num + 1) l
        (fun e he => h e (List.mem_cons_of_mem _ he)) hl
      exact ⟨k, e, a, List.mem_cons_of_mem _ he, ha, hrow⟩

/-- The output of `rulesToString` when the options are read without error and no action
pointer is null: the header line followed by the rows. -/
theorem rulesToString_eq (uuidToString : UUID → List Char) (rules : List DNSDistRuleAction)
    (vars : Option RuleParams) (showUUIDs : Bool) (width : Nat)
    (hopt : rulesToString.options vars = some (showUUIDs, width))
    (hact : ∀ e ∈ rules, e.d_action ≠ none) :
    rulesToString uuidToString rules vars
      = some (String.mk ((rulesToString.header showUUIDs
          :: rulesToString.rows (rulesToString.row uuidToString showUUIDs width) rules 0).flatten)) := by
  unfold rulesToString
  rw [hopt]
  cases showUUIDs with
  | true =>
    have hrow : rulesToString.row uuidToString true width
        = fun num lim action =>
          formatWithUUIDs (decimal num) (uuidToString lim.d_id) (decimal lim.d_creationOrder)
            (decimal lim.d_rule.d_matches) (rulesToString.name width lim)
            action.toString.data := by
      funext num lim action
      simp [rulesToString.row]
    simp only [if_true, rulesToString_loop_eq _ rules 0 _ hact, Option.map_some',
      List.flatten_cons, rulesToString.header, hrow]
  | false =>
    have hrow : rulesToString.row uuidToString false width
        = fun num lim action =>
          formatPlain (decimal num) (decimal lim.d_rule.d_matches)
            (rulesToString.name width lim) action.toString.data := by
      funext num lim action
      simp [rulesToString.row]
    simp only [Bool.false_eq_true, if_false, rulesToString_loop_eq _ rules 0 _ hact,
      Option.map_some', List.flatten_cons, rulesToString.header, hrow]

/-- No decimal digit character is the newline. -/
theorem digitChar_ne_newline : ∀ k, k < 10 → Nat.digitChar k ≠ '\n' := by
  decide

/-- The digits of a number contain no newline. -/
theorem toDigitsCore_no_newline :
    ∀ (fuel n : Nat) (ds : List Char), '\n' ∉ ds → '\n' ∉ Nat.toDigitsCore 10 fuel n ds
  | 0, _, ds, h => by simpa [Nat.toDigitsCore] using h
  | fuel + 1, n, ds, h => by
    have hd : '\n' ∉ Nat.digitChar (n % 10) :: ds := by
      intro hmem
      rcases List.mem_cons.1 hmem with h1 | h1
      · exact digitChar_ne_newline (n % 10) (Nat.mod_lt _ (by decide)) h1.symm
      · exact h h1
    simp only [Nat.toDigitsCore]
    split
    · exact hd
    · exact toDigitsCore_no_newline fuel (n / 10) _ hd

/-- The text of a number contains no newline. -/
theorem decimal_no_newline (n : Nat) : '\n' ∉ decimal n :=
  toDigitsCore_no_newline (n + 1) n [] (by simp)

/-- Padding on the right adds no newline. -/
theorem padRight_no_newline (w : Nat) (s : List Char) (h : '\n' ∉ s) : '\n' ∉ padRight w s := by
  simp [padRight, h]

/-- Padding on the left adds no newline. -/
theorem padLeft_no_newline (w : Nat) (s : List Char) (h : '\n' ∉ s) : '\n' ∉ padLeft w s := by
  simp [padLeft, h]

/-- A line is a newline-free body followed by one newline, when its rule and action
descriptions and the identity text are newline-free. -/
theorem rulesToString_line_body (uuidToString : UUID → List Char) (showUUIDs : Bool)
    (num : Nat) (lim : DNSDistRuleAction) (name action : List Char)
    (hu : '\n' ∉ uuidToString lim.d_id) (hn : '\n' ∉ name) (ha : '\n' ∉ action) :
    ∃ body, rulesToString.line uuidToString showUUIDs num lim name action = body ++ ['\n']
      ∧ '\n' ∉ body := by
  refine ⟨padRight 3 (decimal num) ++ [' ']
    ++ (if showUUIDs then
          padRight 38 (uuidToString lim.d_id) ++ [' ']
            ++ padLeft 9 (decimal lim.d_creationOrder) ++ [' ']
        else [])
    ++ padLeft 9 (decimal lim.d_rule.d_matches) ++ [' ']
    ++ padRight 56 name ++ [' '] ++ action, rfl, ?_⟩
  have h1 := padRight_no_newline 3 _ (decimal_no_newline num)
  have h2 := padRight_no_newline 38 _ hu
  have h3 := padLeft_no_newline 9 _ (decimal_no_newline lim.d_creationOrder)
  have h4 := padLeft_no_newline 9 _ (decimal_no_newline lim.d_rule.d_matches)
  have h5 := padRight_no_newline 56 _ hn
  cases showUUIDs <;> simp [h1, h2, h3, h4, h5, ha]

/-- The header is a newline-free body followed by one newline. -/
theorem rulesToString_labels_body (showUUIDs : Bool) :
    ∃ body, rulesToString.labels showUUIDs = body ++ ['\n'] ∧ '\n' ∉ body := by
  cases showUUIDs
  · exact ⟨(rulesToString.labels false).dropLast, by decide, by decide⟩
  · exact ⟨(rulesToString.labels true).dropLast, by decide, by decide⟩

/-- Each of the two row formats of the source produces the line of the description. -/
theorem rulesToString_row_eq_line (uuidToString : UUID → List Char) (showUUIDs : Bool)
    (width num : Nat) (lim : DNSDistRuleAction) (action : DNSAction) :
    rulesToString.row uuidToString showUUIDs width num lim action
      = rulesToString.line uuidToString showUUIDs num lim
          (lim.d_rule.toString.data.take width) action.toString.data := by
  cases showUUIDs <;>
    simp [rulesToString.row, rulesToString.line, formatWithUUIDs, formatPlain,
      rulesToString.name]

/-- Each of the two header formats of the source produces the line of column labels. -/
theorem rulesToString_header_eq_labels (showUUIDs : Bool) :
    rulesToString.header showUUIDs = rulesToString.labels showUUIDs := by
  cases showUUIDs <;>
    simp [rulesToString.header, rulesToString.labels, formatWithUUIDs, formatPlain]

/-- The local `showUUIDs` is true exactly when the table is present and holds the boolean
`true` under the key `showUUIDs`. -/
theorem rulesToString_options_showUUIDs (vars : Option RuleParams) (showUUIDs : Bool)
    (width : Nat) (hopt : rulesToString.options vars = some (showUUIDs, width)) :
    showUUIDs = true ↔ ∃ v, vars = some v ∧ v "showUUIDs" = some (.bool true) := by
  cases vars with
  | none =>
    simp only [rulesToString.options, Option.some.injEq, Prod.mk.injEq] at hopt
    simp [← hopt.1]
  | some v =>
    simp only [rulesToString.options] at hopt
    cases hs : v "showUUIDs" with
    | none =>
      rw [hs] at hopt
      cases ht : (match v "truncateRuleWidth" with
        | some x => x.getInt.map (fun n : Int => (n % 2 ^ 64).toNat)
        | none => some npos) with
      | none => rw [ht] at hopt; simp at hopt
      | some w =>
        rw [ht] at hopt
        simp only [Option.some.injEq, Prod.mk.injEq] at hopt
        simp [← hopt.1, hs]
    | some x =>
      rw [hs] at hopt
      cases x with
      | bool b =>
        cases ht : (match v "truncateRuleWidth" with
          | some x => x.getInt.map (fun n : Int => (n % 2 ^ 64).toNat)
          | none => some npos) with
        | none => rw [ht] at hopt; simp [RuleParamValue.getBool] at hopt
        | some w =>
          rw [ht] at hopt
          simp only [RuleParamValue.getBool, Option.some.injEq, Prod.mk.injEq] at hopt
          simp [← hopt.1, hs]
      | int n => simp [RuleParamValue.getBool] at hopt
      | str s => simp [RuleParamValue.getBool] at hopt
      | pairs p => simp [RuleParamValue.getBool] at hopt

/-- The local `truncateRuleWidth` is the value of the option when that is a non-negative
`int`, and `npos` when the table or the key is absent. -/
theorem rulesToString_options_width (vars : Option RuleParams) (showUUIDs : Bool)
    (width : Nat) (hopt : rulesToString.options vars = some (showUUIDs, width)) :
    (∀ v w, vars = some v → v "truncateRuleWidth" = some (.int w) → 0 ≤ w → w < 2 ^ 31 →
      width = w.toNat)
    ∧ ((vars = none ∨ ∃ v, vars = some v ∧ v "truncateRuleWidth" = none) → width = npos) := by
  constructor
  · intro v w hv ht h0 h1
    subst hv
    simp only [rulesToString.options, ht, RuleParamValue.getInt, Option.map_some'] at hopt
    have hmod : w % 2 ^ 64 = w := by omega
    rw [hmod] at hopt
    cases hs : (match v "showUUIDs" with
      | some x => x.getBool
      | none => some false) with
    | none => rw [hs] at hopt; simp at hopt
    | some s =>
      rw [hs] at hopt
      simp only [Option.some.injEq, Prod.mk.injEq] at hopt
      exact hopt.2.symm
  · intro h
    rcases h with h | ⟨v, hv, ht⟩
    · subst h
      simp only [rulesToString.options, Option.some.injEq, Prod.mk.injEq] at hopt
      exact hopt.2.symm
    · subst hv
      simp only [rulesToString.options, ht] at hopt
      cases hs : (match v "showUUIDs" with
        | some x => x.getBool
        | none => some false) with
      | none => rw [hs] at hopt; simp at hopt
      | some s =>
        rw [hs] at hopt
        simp only [Option.some.injEq, Prod.mk.injEq] at hopt
        exact hopt.2.symm

/-- When every line holds exactly one newline, the text holds one newline per line. -/
theorem count_newline_flatten :
    ∀ lines : List (List Char), (∀ l ∈ lines, ∃ body, l = body ++ ['\n'] ∧ '\n' ∉ body) →
      lines.flatten.count '\n' = lines.length
  | [], _ => rfl
  | l :: rest, h => by
    obtain ⟨body, hl, hb⟩ := h l (List.mem_cons_self _ _)
    have ih := count_newline_flatten rest (fun l1 h1 => h l1 (List.mem_cons_of_mem _ h1))
    rw [List.flatten_cons, List.count_append, ih, hl, List.count_append,
      List.count_eq_zero_of_not_mem hb]
    simp
    omega

/-- The shape of the output when the head of `rulesToString` has set its two locals to
`showUUIDs` and `width`: a line of column labels and one line per entry, each a
newline-free body closed by one newline. -/
theorem rulesToString_lines_of_options (uuidToString : UUID → List Char)
    (rules : List DNSDistRuleAction) (vars : Option RuleParams) (showUUIDs : Bool)
    (width : Nat) (hopt : rulesToString.options vars = some (showUUIDs, width))
    (hact : ∀ e ∈ rules, ∃ a, e.d_action = some a ∧ '\n' ∉ a.toString.data)
    (hrule : ∀ e ∈ rules, '\n' ∉ e.d_rule.toString.data)
    (huuid : ∀ u, '\n' ∉ uuidToString u) :
    (showUUIDs = true ↔ ∃ v, vars = some v ∧ v "showUUIDs" = some (.bool true))
    ∧ ∃ lines : List (List Char),
      rulesToString uuidToString rules vars = some (String.mk lines.flatten)
      ∧ lines.length = rules.length + 1
      ∧ (∀ l ∈ lines, ∃ body, l = body ++ ['\n'] ∧ '\n' ∉ body)
      ∧ lines.flatten.count '\n' = rules.length + 1
      ∧ lines[0]? = some (rulesToString.labels showUUIDs)
      ∧ ∀ i e a, rules[i]? = some e → e.d_action = some a →
          lines[i + 1]? = some (rulesToString.line uuidToString showUUIDs i e
            (e.d_rule.toString.data.take width) a.toString.data) := by
  have hnonnull : ∀ e ∈ rules, e.d_action ≠ none := by
    intro e he
    obtain ⟨a, ha, _⟩ := hact e he
    simp [ha]
  have hlen := rulesToString_rows_length (rulesToString.row uuidToString showUUIDs width) rules 0
  have hbody : ∀ l ∈ rulesToString.header showUUIDs
      :: rulesToString.rows (rulesToString.row uuidToString showUUIDs width) rules 0,
      ∃ body, l = body ++ ['\n'] ∧ '\n' ∉ body := by
    intro l hl
    rcases List.mem_cons.1 hl with hl | hl
    · rw [hl, rulesToString_header_eq_labels]
      exact rulesToString_labels_body showUUIDs
    · obtain ⟨k, e, a, he, ha, hrow⟩ := rulesToString_mem_rows _ rules 0 l hnonnull hl
      obtain ⟨a1, ha1, hnl⟩ := hact e he
      rw [ha] at ha1
      cases ha1
      rw [hrow, rulesToString_row_eq_line uuidToString showUUIDs width k e a]
      exact rulesToString_line_body uuidToString showUUIDs k e _ _ (huuid _)
        (fun hm => hrule e he (List.mem_of_mem_take hm)) hnl
  refine ⟨rulesToString_options_showUUIDs vars showUUIDs width hopt, _,
    rulesToString_eq uuidToString rules vars showUUIDs width hopt hnonnull, ?_, hbody, ?_, ?_, ?_⟩
  · simp [hlen]
  · rw [count_newline_flatten _ hbody]
    simp [hlen]
  · simp [rulesToString_header_eq_labels]
  · intro i e a hi ha
    rw [List.getElem?_cons_succ, rulesToString_rows_getElem? _ rules 0 i e a hi ha,
      rulesToString_row_eq_line uuidToString showUUIDs width (0 + i) e a, Nat.zero_add]

/-- C16: in the line of every entry the rule description is the first
`min width length` characters of the text of `toString()`, which is never longer than
`width`, where `width` is the value `w` of the option `truncateRuleWidth` when that is a
non-negative `int`; when the table or the option is absent, `width` is `npos` and the whole
description is shown (a `std::string` is shorter than `2 ^ 64`). -/
theorem rulesToString_truncates_description (uuidToString : UUID → List Char)
    (rules : List DNSDistRuleAction) (vars : Option RuleParams) (showUUIDs : Bool)
    (width : Nat) (hopt : rulesToString.options vars = some (showUUIDs, width))
    (hact : ∀ e ∈ rules, e.d_action ≠ none) :
    (∀ v w, vars = some v → v "truncateRuleWidth" = some (.int w) → 0 ≤ w → w < 2 ^ 31 →
      width = w.toNat)
    ∧ ((vars = none ∨ ∃ v, vars = some v ∧ v "truncateRuleWidth" = none) → width = npos)
    ∧ ∃ lines : List (List Char),
      rulesToString uuidToString rules vars = some (String.mk lines.flatten)
      ∧ ∀ i e a, rules[i]? = some e → e.d_action = some a →
          lines[i + 1]? = some (rulesToString.line uuidToString showUUIDs i e
            (e.d_rule.toString.data.take (min width e.d_rule.toString.data.length))
            a.toString.data)
          ∧ (e.d_rule.toString.data.take (min width e.d_rule.toString.data.length)).length
              = min width e.d_rule.toString.data.length
          ∧ (e.d_rule.toString.data.take (min width e.d_rule.toString.data.length)).length
              ≤ width
          ∧ (width = npos → e.d_rule.toString.data.length < 2 ^ 64 →
              e.d_rule.toString.data.take (min width e.d_rule.toString.data.length)
                = e.d_rule.toString.data) := by
  have hw := rulesToString_options_width vars showUUIDs width hopt
  refine ⟨hw.1, hw.2, _, rulesToString_eq uuidToString rules vars showUUIDs width hopt hact, ?_⟩
  intro i e a hi ha
  have htake : e.d_rule.toString.data.take (min width e.d_rule.toString.data.length)
      = e.d_rule.toString.data.take width := by
    rcases Nat.le_total width e.d_rule.toString.data.length with h | h
    · rw [Nat.min_eq_left h]
    · rw [Nat.min_eq_right h, List.take_of_length_le h, List.take_of_length_le (Nat.le_refl _)]
  refine ⟨?_, ?_, ?_, ?_⟩
  · rw [List.getElem?_cons_succ, rulesToString_rows_getElem? _ rules 0 i e a hi ha,
      rulesToString_row_eq_line uuidToString showUUIDs width (0 + i) e a, Nat.zero_add,
      htake]
  · rw [List.length_take]
    omega
  · rw [List.length_take]
    omega
  · intro hn hl
    rw [htake]
    apply List.take_of_length_le
    rw [hn, npos]
    omega

/-- C16 on one entry whose description `rule` is cut to the width 2 of the option table. -/
theorem rulesToString_truncates_description_witness :
    rulesToString.options (some sampleRuleParams) = some (true, 2)
    ∧ (∀ e ∈ [sampleEntry 12 5], e.d_action ≠ none)
    ∧ ∃ lines : List (List Char),
      rulesToString sampleUuidToString [sampleEntry 12 5] (some sampleRuleParams)
        = some (String.mk lines.flatten)
      ∧ ∀ i e a, [sampleEntry 12 5][i]? = some e → e.d_action = some a →
          lines[i + 1]? = some (rulesToString.line sampleUuidToString true i e
            (e.d_rule.toString.data.take (min 2 e.d_rule.toString.data.length))
            a.toString.data)
          ∧ (e.d_rule.toString.data.take (min 2 e.d_rule.toString.data.length)).length
              = min 2 e.d_rule.toString.data.length
          ∧ (e.d_rule.toString.data.take (min 2 e.d_rule.toString.data.length)).length ≤ 2
          ∧ (2 = npos → e.d_rule.toString.data.length < 2 ^ 64 →
              e.d_rule.toString.data.take (min 2 e.d_rule.toString.data.length)
                = e.d_rule.toString.data) :=
  ⟨by decide, by decide,
    (rulesToString_truncates_description sampleUuidToString [sampleEntry 12 5]
      (some sampleRuleParams) true 2 (by decide) (by decide)).2.2⟩

/-! ## `makeRule` on a table of strings -/

/-- The loop over a table of strings, when every string that is not a mask is a valid
`DNSName`: the masks are appended to `nmg` and the names of the other strings to `smn`,
both in the order of the table. -/
theorem makeRule_addAll_eq {Netmask DNSName : Type} (addMask : String → Option Netmask)
    (mkDNSName : String → Option DNSName) :
    ∀ (v : List (Int × String)) (sets : List DNSName × List Netmask),
      (∀ a ∈ v, addMask a.2 = none → ∃ n, mkDNSName a.2 = some n) →
      makeRule.addAll addMask mkDNSName v sets
        = some (sets.1 ++ v.filterMap (fun a =>
                  match addMask a.2 with
                  | some _ => none
                  | none => mkDNSName a.2),
                sets.2 ++ v.filterMap (fun a => addMask a.2))
  | [], sets, _ => by simp [makeRule.addAll]
  | a :: rest, sets, h => by
    have hrest : ∀ b ∈ rest, addMask b.2 = none → ∃ n, mkDNSName b.2 = some n :=
      fun b hb => h b (List.mem_cons_of_mem _ hb)
    cases hm : addMask a.2 with
    | some m =>
      simp [makeRule.addAll, makeRule.add, hm, List.filterMap_cons,
        makeRule_addAll_eq addMask mkDNSName rest _ hrest]
    | none =>
      obtain ⟨n, hn⟩ := h a (List.mem_cons_self _ _) hm
      simp [makeRule.addAll, makeRule.add, hm, hn, List.filterMap_cons,
        makeRule_addAll_eq addMask mkDNSName rest _ hrest]

/-- The loop over a table of strings has no result when one of the strings is neither a
mask nor a valid `DNSName`. -/
theorem makeRule_addAll_none {Netmask DNSName : Type} (addMask : String → Option Netmask)
    (mkDNSName : String → Option DNSName) :
    ∀ (v : List (Int × String)) (sets : List DNSName × List Netmask),
      (∃ a ∈ v, addMask a.2 = none ∧ mkDNSName a.2 = none) →
      makeRule.addAll addMask mkDNSName v sets = none
  | [], _, h => by
    obtain ⟨a, ha, _⟩ := h
    simp at ha
  | a :: rest, sets, h => by
    cases hadd : makeRule.add addMask mkDNSName sets a.2 with
    | none => simp [makeRule.addAll, hadd]
    | some sets1 =>
      obtain ⟨b, hb, hb1, hb2⟩ := h
      rcases List.mem_cons.1 hb with hb | hb
      · subst hb
        simp [makeRule.add, hb1, hb2] at hadd
      · simp only [makeRule.addAll, hadd]
        exact makeRule_addAll_none addMask mkDNSName rest sets1 ⟨b, hb, hb1, hb2⟩

/-- C21: for a table of strings in which every string that is not a mask is a valid
`DNSName`, `makeRule` returns a rule; the rule is a `NetmaskGroupRule` exactly when at
least one string parses as a mask, and then its set is the list of the parsed masks and
nothing else (the names put into `smn` are not in the rule); when no string parses as a
mask the rule is a `SuffixMatchNodeRule` whose set holds the name of every string.  When a
string is neither a mask nor a valid `DNSName`, `makeRule` returns no rule. -/
theorem makeRule_string_table {Netmask DNSName : Type} (addMask : String → Option Netmask)
    (mkDNSName : String → Option DNSName) (v : List (Int × String)) :
    ((∀ a ∈ v, addMask a.2 = none → ∃ n, mkDNSName a.2 = some n) →
      ∃ r, makeRule addMask mkDNSName (.strs v) = some r
        ∧ ((∃ nmg src, r = MadeRule.NetmaskGroupRule nmg src)
            ↔ ∃ a ∈ v, ∃ m, addMask a.2 = some m)
        ∧ ((∃ a ∈ v, ∃ m, addMask a.2 = some m) →
            r = MadeRule.NetmaskGroupRule (v.filterMap (fun a => addMask a.2)) true)
        ∧ ((∀ a ∈ v, addMask a.2 = none) →
            ∃ smn, r = MadeRule.SuffixMatchNodeRule smn
              ∧ smn.map some = v.map (fun a => mkDNSName a.2)))
    ∧ ((∃ a ∈ v, addMask a.2 = none ∧ mkDNSName a.2 = none) →
      makeRule addMask mkDNSName (.strs v) = none) := by
  constructor
  · intro h
    have heq := makeRule_addAll_eq addMask mkDNSName v ([], []) h
    simp only [List.nil_append] at heq
    by_cases hex : ∃ a ∈ v, ∃ m, addMask a.2 = some m
    · have hne : v.filterMap (fun a => addMask a.2) ≠ [] := by
        obtain ⟨a, ha, m, hm⟩ := hex
        intro hnil
        have hmem : m ∈ v.filterMap (fun a => addMask a.2) :=
          List.mem_filterMap.2 ⟨a, ha, hm⟩
        rw [hnil] at hmem
        simp at hmem
      have hr : makeRule addMask mkDNSName (.strs v)
          = some (MadeRule.NetmaskGroupRule (v.filterMap (fun a => addMask a.2)) true) := by
        simp [makeRule, heq, makeRule.finish, hne]
      refine ⟨_, hr, ⟨fun _ => hex, fun _ => ⟨_, _, rfl⟩⟩, fun _ => rfl, ?_⟩
      intro hall
      obtain ⟨a, ha, m, hm⟩ := hex
      rw [hall a ha] at hm
      simp at hm
    · have hall : ∀ a ∈ v, addMask a.2 = none := by
        intro a ha
        cases hm : addMask a.2 with
        | none => rfl
        | some m => exact absurd ⟨a, ha, m, hm⟩ hex
      have hnil : v.filterMap (fun a => addMask a.2) = [] := by
        rw [List.filterMap_eq_nil_iff]
        exact hall
      have hnames : v.filterMap (fun a =>
            match addMask a.2 with
            | some _ => none
            | none => mkDNSName a.2)
          = v.filterMap (fun a => mkDNSName a.2) := by
        apply List.filterMap_congr
        intro a ha
        simp [hall a ha]
      have hr : makeRule addMask mkDNSName (.strs v)
          = some (MadeRule.SuffixMatchNodeRule (v.filterMap (fun a => mkDNSName a.2))) := by
        simp [makeRule, heq, makeRule.finish, hnil, hnames]
      refine ⟨_, hr, ⟨fun ⟨nmg, src, hn⟩ => by simp at hn, fun h1 => absurd h1 hex⟩,
        fun h1 => absurd h1 hex, fun _ => ⟨_, rfl, ?_⟩⟩
      apply map_some_filterMap
      intro a ha
      exact h a ha (hall a ha)
  · intro h
    simp [makeRule, makeRule_addAll_none addMask mkDNSName v ([], []) h]

/-- In the sample table every string is accepted by the sample `DNSName` constructor. -/
theorem sampleTable_names_valid :
    ∀ a ∈ [((1 : Int), "example.com"), (2, "10.0.0.0/8"), (3, "a.b")],
      sampleAddMask a.2 = none → ∃ n, sampleDNSName a.2 = some n :=
  fun a ha _ => ⟨a.2,
    (by decide : ∀ b ∈ [((1 : Int), "example.com"), (2, "10.0.0.0/8"), (3, "a.b")],
      sampleDNSName b.2 = some b.2) a ha⟩

/-- C21 on the table `example.com`, `10.0.0.0/8`, `a.b`, and on a table with an empty
string. -/
theorem makeRule_string_table_witness :
    (∀ a ∈ [((1 : Int), "example.com"), (2, "10.0.0.0/8"), (3, "a.b")],
      sampleAddMask a.2 = none → ∃ n, sampleDNSName a.2 = some n)
    ∧ (∃ r, makeRule sampleAddMask sampleDNSName
          (.strs [(1, "example.com"), (2, "10.0.0.0/8"), (3, "a.b")]) = some r
        ∧ ((∃ nmg src, r = MadeRule.NetmaskGroupRule nmg src)
            ↔ ∃ a ∈ [((1 : Int), "example.com"), (2, "10.0.0.0/8"), (3, "a.b")],
                ∃ m, sampleAddMask a.2 = some m)
        ∧ ((∃ a ∈ [((1 : Int), "example.com"), (2, "10.0.0.0/8"), (3, "a.b")],
              ∃ m, sampleAddMask a.2 = some m) →
            r = MadeRule.NetmaskGroupRule
              ([((1 : Int), "example.com"), (2, "10.0.0.0/8"), (3, "a.b")].filterMap
                (fun a => sampleAddMask a.2)) true)
        ∧ ((∀ a ∈ [((1 : Int), "example.com"), (2, "10.0.0.0/8"), (3, "a.b")],
              sampleAddMask a.2 = none) →
            ∃ smn, r = MadeRule.SuffixMatchNodeRule smn
              ∧ smn.map some
                = [((1 : Int), "example.com"), (2, "10.0.0.0/8"), (3, "a.b")].map
                    (fun a => sampleDNSName a.2)))
    ∧ makeRule sampleAddMask sampleDNSName
        (.strs [(1, "example.com"), (2, "10.0.0.0/8"), (3, "a.b")])
      = some (MadeRule.NetmaskGroupRule ["10.0.0.0/8"] true)
    ∧ makeRule sampleAddMask sampleDNSName (.strs [(1, "10.0.0.0/8"), (2, "")]) = none :=
  ⟨sampleTable_names_valid,
   (makeRule_string_table sampleAddMask sampleDNSName
      [(1, "example.com"), (2, "10.0.0.0/8"), (3, "a.b")]).1 sampleTable_names_valid,
   by decide,
   (makeRule_string_table sampleAddMask sampleDNSName [(1, "10.0.0.0/8"), (2, "")]).2
      ⟨(2, ""), by decide, by decide, by decide⟩⟩

/-! ## `setRules` -/

/-- On a rule object `makeRule` returns that object, whose `DNSRule` is the one given. -/
theorem makeRule_rule {Netmask DNSName : Type} (addMask : String → Option Netmask)
    (mkDNSName : String → Option DNSName) (describe : MadeRule Netmask DNSName → String)
    (r : DNSRule) :
    makeRule addMask mkDNSName (.rule r) = some (MadeRule.given r)
    ∧ (MadeRule.given r : MadeRule Netmask DNSName).toDNSRule describe = r :=
  ⟨rfl, rfl⟩

/-- The loop of `setRules` returns: it appends to `gruleactions` the elements of the input
whose action is not null, unchanged and in input order. -/
theorem setRules_fill_eq {Netmask DNSName : Type} (addMask : String → Option Netmask)
    (mkDNSName : String → Option DNSName) (describe : MadeRule Netmask DNSName → String) :
    ∀ (input : List (Int × DNSDistRuleAction)) (g : List DNSDistRuleAction),
      setRules.fill addMask mkDNSName describe input g
        = some (g ++ (input.map Prod.snd).filter (fun e => e.d_action.isSome))
  | [], g => by simp [setRules.fill]
  | (i, ⟨r, none, id, order⟩) :: rest, g => by
    simp [setRules.fill, setRules_fill_eq addMask mkDNSName describe rest g]
  | (i, ⟨r, some action, id, order⟩) :: rest, g => by
    simp [setRules.fill, makeRule, MadeRule.toDNSRule,
      setRules_fill_eq addMask mkDNSName describe rest _]

/-- Keeping the second components that satisfy `p` is filtering the list of second
components. -/
theorem filterMap_snd_eq_filter {A B : Type} (p : B → Bool) :
    ∀ l : List (A × B),
      l.filterMap (fun pair => if p pair.2 then some pair.2 else none)
        = (l.map Prod.snd).filter p
  | [] => rfl
  | pair :: rest => by
    cases hp : p pair.2 <;>
      simp [List.filterMap_cons, hp, filterMap_snd_eq_filter p rest]

/-- C22: whatever list was held before, `setRules` publishes the list made of the input
elements whose action is not null, in input order and with nothing else: each published
entry has the action, the identity and the creation order of its element, and as rule the
one `makeRule` returns for the element's rule, which is that rule itself.  The elements
with a null action are left out, so the published list has as many entries as the input has
elements with a non-null action. -/
theorem setRules_publishes_input {Netmask DNSName : Type} (addMask : String → Option Netmask)
    (mkDNSName : String → Option DNSName) (describe : MadeRule Netmask DNSName → String)
    (gruleactions : List DNSDistRuleAction) (newruleactions : List (Int × DNSDistRuleAction)) :
    setRules addMask mkDNSName describe gruleactions newruleactions
        = some (Outcome.publish
            (newruleactions.filterMap (fun pair =>
              match pair.2.d_action, makeRule addMask mkDNSName (.rule pair.2.d_rule) with
              | some action, some rule =>
                some ⟨rule.toDNSRule describe, some action, pair.2.d_id,
                  pair.2.d_creationOrder⟩
              | _, _ => none)))
    ∧ setRules addMask mkDNSName describe gruleactions newruleactions
        = some (Outcome.publish
            ((newruleactions.map Prod.snd).filter (fun e => e.d_action.isSome)))
    ∧ ((newruleactions.map Prod.snd).filter (fun e => e.d_action.isSome)).length
        = (newruleactions.map Prod.snd).countP (fun e => e.d_action.isSome)
    ∧ ((newruleactions.map Prod.snd).filter (fun e => e.d_action.isSome)).Sublist
        (newruleactions.map Prod.snd)
    ∧ (∀ other : List DNSDistRuleAction,
        setRules addMask mkDNSName describe other newruleactions
          = setRules addMask mkDNSName describe gruleactions newruleactions) := by
  have hfill := setRules_fill_eq addMask mkDNSName describe newruleactions []
  have hpub : setRules addMask mkDNSName describe gruleactions newruleactions
      = some (Outcome.publish
          ((newruleactions.map Prod.snd).filter (fun e => e.d_action.isSome))) := by
    simp [setRules, hfill]
  have hfun : (fun pair : Int × DNSDistRuleAction =>
        match pair.2.d_action, makeRule addMask mkDNSName (.rule pair.2.d_rule) with
        | some action, some rule =>
          some (⟨rule.toDNSRule describe, some action, pair.2.d_id,
            pair.2.d_creationOrder⟩ : DNSDistRuleAction)
        | _, _ => none)
      = fun pair => if pair.2.d_action.isSome then some pair.2 else none := by
    funext pair
    obtain ⟨i, ⟨r, act, id, order⟩⟩ := pair
    cases act <;> rfl
  have hform : newruleactions.filterMap (fun pair =>
        match pair.2.d_action, makeRule addMask mkDNSName (.rule pair.2.d_rule) with
        | some action, some rule =>
          some ⟨rule.toDNSRule describe, some action, pair.2.d_id, pair.2.d_creationOrder⟩
        | _, _ => none)
      = (newruleactions.map Prod.snd).filter (fun e => e.d_action.isSome) := by
    rw [hfun]
    exact filterMap_snd_eq_filter (fun e : DNSDistRuleAction => e.d_action.isSome)
      newruleactions
  refine ⟨by rw [hform]; exact hpub, hpub, ?_, List.filter_sublist _, fun other => rfl⟩
  rw [List.countP_eq_length_filter]

/-! ## `rulesToString`: the report for a given option table -/

/-- The head of `rulesToString` accepts every table in which `showUUIDs`, when present, is a
boolean and `truncateRuleWidth`, when present, is an `int`, and also the absence of a
table: the local `showUUIDs` is the boolean of the table (`false` by default) and the local
`truncateRuleWidth` is the `int` of the table converted to `size_t` (`npos` by default). -/
theorem rulesToString_options_of_table (vars : Option RuleParams) (showUUIDs : Bool)
    (width : Nat)
    (hshow0 : vars = none → showUUIDs = false)
    (hshow1 : ∀ v, vars = some v →
      v "showUUIDs" = some (.bool showUUIDs) ∨ (v "showUUIDs" = none ∧ showUUIDs = false))
    (hwidth0 : vars = none → width = npos)
    (hwidth1 : ∀ v, vars = some v →
      (∃ w : Int, v "truncateRuleWidth" = some (.int w) ∧ width = (w % 2 ^ 64).toNat)
        ∨ (v "truncateRuleWidth" = none ∧ width = npos)) :
    rulesToString.options vars = some (showUUIDs, width) := by
  cases vars with
  | none =>
    rw [hshow0 rfl, hwidth0 rfl]
    rfl
  | some v =>
    have hs : (match v "showUUIDs" with
        | some x => x.getBool
        | none => some false) = some showUUIDs := by
      rcases hshow1 v rfl with h | ⟨h, hf⟩
      · rw [h]; rfl
      · rw [h, hf]
    have hw : (match v "truncateRuleWidth" with
        | some x => x.getInt.map (fun n : Int => (n % 2 ^ 64).toNat)
        | none => some npos) = some width := by
      rcases hwidth1 v rfl with ⟨w, h, hw⟩ | ⟨h, hn⟩
      · rw [h, hw]; rfl
      · rw [h, hn]
    simp only [rulesToString.options, hs, hw]

/-- C15: let the option table be absent, or hold under `showUUIDs` nothing or a boolean and
under `truncateRuleWidth` nothing or an `int`; let no action pointer be null and let the
rule descriptions, the action descriptions and the identity texts contain no newline.  Then
`rulesToString` returns a text, and the text is the concatenation of `n + 1` lines, each a
newline-free body closed by one newline (so it holds exactly `n + 1` newlines): first the
line of column labels, then for every `i` the line of the `i`-th entry, which carries the
index `i`, the match count, the rule description (cut to the width in force) and the action
description, and between the index and the match count the identity and the creation order
exactly when the table holds `showUUIDs = true`. -/
theorem rulesToString_lines (uuidToString : UUID → List Char)
    (rules : List DNSDistRuleAction) (vars : Option RuleParams) (showUUIDs : Bool)
    (width : Nat)
    (hshow0 : vars = none → showUUIDs = false)
    (hshow1 : ∀ v, vars = some v →
      v "showUUIDs" = some (.bool showUUIDs) ∨ (v "showUUIDs" = none ∧ showUUIDs = false))
    (hwidth0 : vars = none → width = npos)
    (hwidth1 : ∀ v, vars = some v →
      (∃ w : Int, v "truncateRuleWidth" = some (.int w) ∧ width = (w % 2 ^ 64).toNat)
        ∨ (v "truncateRuleWidth" = none ∧ width = npos))
    (hact : ∀ e ∈ rules, ∃ a, e.d_action = some a ∧ '\n' ∉ a.toString.data)
    (hrule : ∀ e ∈ rules, '\n' ∉ e.d_rule.toString.data)
    (huuid : ∀ u, '\n' ∉ uuidToString u) :
    (showUUIDs = true ↔ ∃ v, vars = some v ∧ v "showUUIDs" = some (.bool true))
    ∧ ∃ lines : List (List Char),
      rulesToString uuidToString rules vars = some (String.mk lines.flatten)
      ∧ lines.length = rules.length + 1
      ∧ (∀ l ∈ lines, ∃ body, l = body ++ ['\n'] ∧ '\n' ∉ body)
      ∧ lines.flatten.count '\n' = rules.length + 1
      ∧ lines[0]? = some (rulesToString.labels showUUIDs)
      ∧ ∀ i e a, rules[i]? = some e → e.d_action = some a →
          lines[i + 1]? = some (rulesToString.line uuidToString showUUIDs i e
            (e.d_rule.toString.data.take width) a.toString.data) :=
  rulesToString_lines_of_options uuidToString rules vars showUUIDs width
    (rulesToString_options_of_table vars showUUIDs width hshow0 hshow1 hwidth0 hwidth1)
    hact hrule huuid

set_option maxRecDepth 100000 in
/-- The report of the sample list under the sample table (`showUUIDs = true`,
`truncateRuleWidth = 2`): the identity and creation-order columns are present and the
rule description is cut to two characters. -/
theorem rulesToString_sample_report :
    rulesToString sampleUuidToString sampleReportRules (some sampleRuleParams)
      = some ("#   UUID                                   Cr. Order   Matches Rule                                                     Action\n"
          ++ "0   12                                            12         5 ru                                                       action\n"
          ++ "1   3                                              3         7 ru                                                       action\n") := by
  decide

/-- C15 on the sample list of two entries under the sample table, which sets
`showUUIDs = true` and `truncateRuleWidth = 2`. -/
theorem rulesToString_lines_witness :
    sampleRuleParams "showUUIDs" = some (.bool true)
    ∧ sampleRuleParams "truncateRuleWidth" = some (.int 2)
    ∧ (∀ e ∈ sampleReportRules, ∃ a, e.d_action = some a ∧ '\n' ∉ a.toString.data)
    ∧ (∀ e ∈ sampleReportRules, '\n' ∉ e.d_rule.toString.data)
    ∧ (∀ u, '\n' ∉ sampleUuidToString u)
    ∧ rulesToString sampleUuidToString sampleReportRules (some sampleRuleParams)
      = some ("#   UUID                                   Cr. Order   Matches Rule                                                     Action\n"
          ++ "0   12                                            12         5 ru                                                       action\n"
          ++ "1   3                                              3         7 ru                                                       action\n")
    ∧ ((true = true ↔ ∃ v, some sampleRuleParams = some v ∧ v "showUUIDs" = some (.bool true))
      ∧ ∃ lines : List (List Char),
        rulesToString sampleUuidToString sampleReportRules (some sampleRuleParams)
          = some (String.mk lines.flatten)
        ∧ lines.length = sampleReportRules.length + 1
        ∧ (∀ l ∈ lines, ∃ body, l = body ++ ['\n'] ∧ '\n' ∉ body)
        ∧ lines.flatten.count '\n' = sampleReportRules.length + 1
        ∧ lines[0]? = some (rulesToString.labels true)
        ∧ ∀ i e a, sampleReportRules[i]? = some e → e.d_action = some a →
            lines[i + 1]? = some (rulesToString.line sampleUuidToString true i e
              (e.d_rule.toString.data.take 2) a.toString.data)) :=
  ⟨by decide, by decide, by decide, by decide, decimal_no_newline,
    rulesToString_sample_report,
    rulesToString_lines sampleUuidToString sampleReportRules (some sampleRuleParams) true 2
      (fun h => by cases h)
      (fun v hv => by cases hv; exact Or.inl (by decide))
      (fun h => by cases h)
      (fun v hv => by cases hv; exact Or.inl ⟨2, by decide, by decide⟩)
      (by decide) (by decide) decimal_no_newline⟩

end Dnsdist
